import Mathlib

/-!
# Piecewise-linear interpolation (`interpolateMex.c`)

A shallow embedding of the scan of `mexFunction` in `src/interpolateMex.c`.

Modelling conventions.

* The buffers `tx`, `x`, `ty`, `y` are lists; every read and every write is
  bounds-checked and yields `Err.outOfBounds` where the C code would touch
  memory outside the buffer.
* The `int` variables `ix`, `iy`, `c` start at `0` and are only incremented, the
  dimensions come from `mxGetM`/`mxGetN`; they are naturals.  The one
  subtraction of the source, `nx-2`, is computed in `Int`, so that it is
  negative when `nx < 2` exactly as in C.  Signed overflow is undefined in C
  and is not modelled in the loops; the index range is a statement of its own.
* The `while` loop is run on fuel; `advance` supplies `nx+1` units and
  `Err.outOfFuel` is what an exhausted loop would return.
* The input values are finite rationals (NaN and infinite inputs are not
  modelled).  The computed values `p1`, `p2` and the cells of `y` are modelled
  twice:
  - in exact arithmetic (`weights`, `colLoop`, `mexFunction`): values are
    rationals, and a division by zero, which has no value, is flagged as
    `Err.divByZero`;
  - over an arithmetic `A : Arith V` (`weightsM`, `colLoopM`, `mexFunctionM`):
    the same loops, with the operations `-`, `/`, `*`, `+` of `A`, no stop at
    a zero divisor, and a log of the indices written.  `ieee` is binary64
    arithmetic (round to nearest, ties to even, gradual underflow, overflow
    to an infinity, NaN; the two zeros identified), `exactArith` is exact
    arithmetic with an undefined value for `0/0`.
-/

namespace Interp

/-- Ways in which the checked scan can stop without a result. -/
inductive Err where
  | outOfBounds
  | divByZero
  | outOfFuel
  deriving DecidableEq, Repr

/-- The local variables of `mexFunction` after argument marshalling:
`nx = mxGetM(prhs[1])`, `ncolumns = mxGetN(prhs[1])`,
`ny = mxGetM(prhs[2])*mxGetN(prhs[2])`, and the three data pointers. -/
structure Input where
  nx : Nat
  ncolumns : Nat
  ny : Nat
  tx : List ℚ
  x : List ℚ
  ty : List ℚ

/-- Checked read `a[i]`. -/
def rd (a : List ℚ) (i : Nat) : Except Err ℚ :=
  match a[i]? with
  | some v => .ok v
  | none => .error .outOfBounds

/-- Checked write `a[i] = v`. -/
def wr (a : List ℚ) (i : Nat) (v : ℚ) : Except Err (List ℚ) :=
  if i < a.length then .ok (a.set i v) else .error .outOfBounds

/-- The loop condition `ix<nx-2 && tx[ix+1]<ty[iy]`, with the short-circuit
evaluation of `&&`: nothing is read when `ix<nx-2` fails. -/
def whileCond (inp : Input) (iy ix : Nat) : Except Err Bool :=
  if (ix : Int) < (inp.nx : Int) - 2 then
    match rd inp.tx (ix + 1) with
    | .error e => .error e
    | .ok b =>
      match rd inp.ty iy with
      | .error e => .error e
      | .ok t => .ok (decide (b < t))
  else .ok false

/-- The loop `while(ix<nx-2 && tx[ix+1]<ty[iy]) ix++;` on fuel: returns the
cursor at loop exit. -/
def advanceFuel (inp : Input) (iy : Nat) : Nat → Nat → Except Err Nat
  | 0, _ => .error .outOfFuel
  | fuel + 1, ix =>
    match whileCond inp iy ix with
    | .error e => .error e
    | .ok true => advanceFuel inp iy fuel (ix + 1)
    | .ok false => .ok ix

/-- The `while` loop of the source, with fuel `nx+1` (never exhausted, see
`advance_ne_outOfFuel`). -/
def advance (inp : Input) (iy ix : Nat) : Except Err Nat :=
  advanceFuel inp iy (inp.nx + 1) ix

/-- The three-regime `if`/`else if`/`else` chain: returns `(p1, p2)`. -/
def weights (inp : Input) (iy ix : Nat) : Except Err (ℚ × ℚ) :=
  match rd inp.ty iy with
  | .error e => .error e
  | .ok t =>
    match rd inp.tx ix with
    | .error e => .error e
    | .ok a =>
      if t < a then .ok (1, 0)
      else
        match rd inp.tx (ix + 1) with
        | .error e => .error e
        | .ok b =>
          if b < t then .ok (0, 1)
          else if b - a = 0 then .error .divByZero
          else .ok (1 - (t - a) / (b - a), (t - a) / (b - a))

/-- The column loop `for(c=0; c<ncolumns; c++) y[c*ny+iy] = p1*x[c*nx+ix] +
p2*x[c*nx+ix+1];`, with `k` iterations left and `c` the current column. -/
def colLoop (inp : Input) (p1 p2 : ℚ) (ix iy : Nat) :
    Nat → Nat → List ℚ → Except Err (List ℚ)
  | 0, _, y => .ok y
  | k + 1, c, y =>
    match rd inp.x (c * inp.nx + ix) with
    | .error e => .error e
    | .ok a =>
      match rd inp.x (c * inp.nx + ix + 1) with
      | .error e => .error e
      | .ok b =>
        match wr y (c * inp.ny + iy) (p1 * a + p2 * b) with
        | .error e => .error e
        | .ok y1 => colLoop inp p1 p2 ix iy k (c + 1) y1

/-- One pass through the body of the outer loop at query index `iy`: the
`while` loop, the regime chain, the column loop.  The state is the cursor `ix`
and the output buffer `y`. -/
def body (inp : Input) (iy ix : Nat) (y : List ℚ) : Except Err (Nat × List ℚ) :=
  match advance inp iy ix with
  | .error e => .error e
  | .ok ix1 =>
    match weights inp iy ix1 with
    | .error e => .error e
    | .ok (p1, p2) =>
      match colLoop inp p1 p2 ix1 iy inp.ncolumns 0 y with
      | .error e => .error e
      | .ok y1 => .ok (ix1, y1)

/-- The outer loop `for(iy=...; iy<ny; iy++)`, with `k` iterations left. -/
def outer (inp : Input) : Nat → Nat → Nat → List ℚ → Except Err (Nat × List ℚ)
  | 0, _, ix, y => .ok (ix, y)
  | k + 1, iy, ix, y =>
    match body inp iy ix y with
    | .error e => .error e
    | .ok (ix1, y1) => outer inp k (iy + 1) ix1 y1

/-- The zero-initialised output buffer of `mxCreateDoubleMatrix(ny,ncolumns,mxREAL)`. -/
def initY (inp : Input) : List ℚ := List.replicate (inp.ny * inp.ncolumns) 0

/-- The scan state (cursor, output buffer) after the first `k` query indices. -/
def scan (inp : Input) (k : Nat) : Except Err (Nat × List ℚ) :=
  outer inp k 0 0 (initY inp)

/-- The whole function: `ix = 0`, then the outer loop over all `ny` queries;
the result is the output buffer (column-major, `ny` entries per column). -/
def mexFunction (inp : Input) : Except Err (List ℚ) :=
  match scan inp inp.ny with
  | .error e => .error e
  | .ok (_, y) => .ok y

/-- The entry `SourceTimes[i]`. -/
def srcTime (inp : Input) (i : Nat) : ℚ := inp.tx.getD i 0

/-- The entry `QueryTimes[iy]`. -/
def qryTime (inp : Input) (iy : Nat) : ℚ := inp.ty.getD iy 0

/-- The entry `SourceValues[i][c]` (column-major: `x[c*nx+i]`). -/
def srcVal (inp : Input) (i c : Nat) : ℚ := inp.x.getD (c * inp.nx + i) 0

/-- The entry `Result[iy][c]` of an output buffer (column-major: `y[c*ny+iy]`). -/
def cell (inp : Input) (y : List ℚ) (iy c : Nat) : ℚ := y.getD (c * inp.ny + iy) 0

/-- The buffers have the sizes the dimensions announce. -/
def WellFormed (inp : Input) : Prop :=
  inp.tx.length = inp.nx ∧ inp.x.length = inp.nx * inp.ncolumns ∧ inp.ty.length = inp.ny

/-- SourceTimes is strictly increasing. -/
def StrictInc (inp : Input) : Prop := inp.tx.Pairwise (· < ·)

/-- QueryTimes is non-decreasing. -/
def NonDec (inp : Input) : Prop := inp.ty.Pairwise (· ≤ ·)

/-- Reference bracket search from scratch, as the specification words it: the
smallest `ix` in `0..nx-2` with `ix = nx-2` or `SourceTimes[ix+1] ≥ t`. -/
def refBracket (inp : Input) (t : ℚ) : Nat :=
  ((List.range (inp.nx - 1)).find?
    (fun ix => decide (ix + 2 = inp.nx ∨ t ≤ srcTime inp (ix + 1)))).getD 0

/-- Reference blend weights `(p1, p2)` of the three regimes for a query `t`
and a bracket `ix`, as the specification words them. -/
def refWeights (inp : Input) (t : ℚ) (ix : Nat) : ℚ × ℚ :=
  if t < srcTime inp ix then (1, 0)
  else if srcTime inp (ix + 1) < t then (0, 1)
  else (1 - (t - srcTime inp ix) / (srcTime inp (ix + 1) - srcTime inp ix),
        (t - srcTime inp ix) / (srcTime inp (ix + 1) - srcTime inp ix))

/-- Reference value of `Result[iy][c]`: bracket search from scratch for
`QueryTimes[iy]`, then the three-regime blend. -/
def refCell (inp : Input) (iy c : Nat) : ℚ :=
  (refWeights inp (qryTime inp iy) (refBracket inp (qryTime inp iy))).1
      * srcVal inp (refBracket inp (qryTime inp iy)) c
    + (refWeights inp (qryTime inp iy) (refBracket inp (qryTime inp iy))).2
      * srcVal inp (refBracket inp (qryTime inp iy) + 1) c

/-- The same sources with the single-element query vector `[t]`. -/
def withQuery (inp : Input) (t : ℚ) : Input := { inp with ny := 1, ty := [t] }

/-- The scenario of the specification: three knots, one column, seven queries. -/
def exampleSingle : Input :=
  { nx := 3, ncolumns := 1, ny := 7, tx := [0, 1, 2], x := [10, 20, 30],
    ty := [-1, 0, 1 / 2, 1, 3 / 2, 2, 3] }

/-- An out-of-order query sequence on the knots of the scenario: the query `3`
drives the cursor to the last bracket before the query `-1` is served. -/
def exampleUnsorted : Input :=
  { nx := 3, ncolumns := 1, ny := 2, tx := [0, 1, 2], x := [10, 20, 30], ty := [3, -1] }

/-- The multi-column scenario of the specification: two knots, two columns
(column-major `[0, 10, 100, 200]`), one query. -/
def exampleMulti : Input :=
  { nx := 2, ncolumns := 2, ny := 1, tx := [0, 2], x := [0, 10, 100, 200], ty := [1] }

/-- Number of executions of `ix++` by the `while` loop at query index `iy`
entered with cursor `ix` (the loop `advanceFuel`, counting instead of
returning the cursor). -/
def increments (inp : Input) (iy : Nat) : Nat → Nat → Nat
  | 0, _ => 0
  | fuel + 1, ix =>
    match whileCond inp iy ix with
    | .ok true => increments inp iy fuel (ix + 1) + 1
    | _ => 0

/-- The indices of `y` written by the column loop at query index `iy`, in
order, with `k` iterations left and `c` the current column (the loop
`colLoop`, recording the index of each assignment `y[c*ny+iy] = ...`). -/
def colWrites (inp : Input) (iy : Nat) : Nat → Nat → List Nat
  | 0, _ => []
  | k + 1, c => (c * inp.ny + iy) :: colWrites inp iy k (c + 1)

/-- The out-of-order witness of the specification: knots `[0, 1, 2]`, values
`[10, 20, 30]`, queries `[3, 1/2]`. -/
def exampleOutOfOrder : Input :=
  { nx := 3, ncolumns := 1, ny := 2, tx := [0, 1, 2], x := [10, 20, 30], ty := [3, 1 / 2] }

/-- A degenerate input with a single knot (`nx = 1`) and two columns. -/
def exampleDegenerate : Input :=
  { nx := 1, ncolumns := 2, ny := 1, tx := [5], x := [10, 20], ty := [3] }


/-- The two nested loops of the source as one state machine on `(iy, ix, y)`,
defined by well-founded recursion on the measure `(ny - iy, nx - 2 - ix)`: a
true loop condition executes `ix++` (the second component decreases), a false
one runs the rest of the body and `iy++` (the first component decreases). -/
def run (inp : Input) (iy ix : Nat) (y : List ℚ) : Except Err (List ℚ) :=
  if _hiy : iy < inp.ny then
    match hc : whileCond inp iy ix with
    | .error e => .error e
    | .ok true => run inp iy (ix + 1) y
    | .ok false =>
      match weights inp iy ix with
      | .error e => .error e
      | .ok (p1, p2) =>
        match colLoop inp p1 p2 ix iy inp.ncolumns 0 y with
        | .error e => .error e
        | .ok y1 => run inp (iy + 1) ix y1
  else .ok y
termination_by (inp.ny - iy, inp.nx - 2 - ix)
decreasing_by
  · apply Prod.Lex.right
    have hlt : ix + 2 < inp.nx := by
      unfold whileCond at hc
      split at hc
      · omega
      · cases hc
    omega
  · apply Prod.Lex.left
    omega


/-- The running maximum `max(QueryTimes[0], ..., QueryTimes[iy])`. -/
def runMax (inp : Input) : Nat → ℚ
  | 0 => qryTime inp 0
  | k + 1 => max (runMax inp k) (qryTime inp (k + 1))


/-- The entrywise combination `a*u + b*v` of two buffers of the same shape. -/
def linComb (a b : ℚ) (u v : List ℚ) : List ℚ := List.zipWith (fun p q => a * p + b * q) u v

/-- The same times with the SourceValues buffer `xs`. -/
def withValues (inp : Input) (xs : List ℚ) : Input := { inp with x := xs }

/-- The entrywise combination of two results; an error of either run is kept. -/
def combine (a b : ℚ) : Except Err (List ℚ) → Except Err (List ℚ) → Except Err (List ℚ)
  | .ok y, .ok y1 => .ok (linComb a b y y1)
  | .error e, _ => .error e
  | .ok _, .error e => .error e

/-- Three runs agree: all stop with the same error, or all return and the
results are related by `R`. -/
def Agree3 {α : Type} (R : α → α → α → Prop) :
    Except Err α → Except Err α → Except Err α → Prop
  | .ok u, .ok v, .ok w => R u v w
  | .error e, .error e1, .error e2 => e = e1 ∧ e = e2
  | _, _, _ => False

/-- The buffer `yl` is the entrywise combination `a*y + b*y1`. -/
def LinOf (a b : ℚ) (y y1 yl : List ℚ) : Prop :=
  y1.length = y.length ∧ yl.length = y.length ∧
    ∀ idx, yl.getD idx 0 = a * y.getD idx 0 + b * y1.getD idx 0


/-- An IEEE double-precision value: finite, infinite or NaN (the two zeros are
identified). -/
inductive Dbl where
  | fin (q : ℚ)
  | inf (negative : Bool)
  | nan
  deriving DecidableEq

/-- The power `2^e` for an integer exponent. -/
def pow2 (e : ℤ) : ℚ :=
  if 0 ≤ e then ((2 ^ e.toNat : ℕ) : ℚ) else 1 / ((2 ^ (-e).toNat : ℕ) : ℚ)

/-- The position of the leading bit of `n`, on fuel: `⌊log₂ n⌋` for `n ≥ 1`
when the fuel is at least that (and `0` for `n = 0`). -/
def leadingBit : Nat → Nat → Nat
  | 0, _ => 0
  | fuel + 1, n => if 2 ≤ n then leadingBit fuel (n / 2) + 1 else 0

/-- The binary exponent `⌊log₂ q⌋` of a positive rational `q = a/b`: it is
`⌊log₂ a⌋ - ⌊log₂ b⌋` or one less. -/
def log2Floor (q : ℚ) : ℤ :=
  if pow2 ((leadingBit q.num.natAbs q.num.natAbs : ℤ) - (leadingBit q.den q.den : ℤ)) ≤ q then
    (leadingBit q.num.natAbs q.num.natAbs : ℤ) - (leadingBit q.den q.den : ℤ)
  else (leadingBit q.num.natAbs q.num.natAbs : ℤ) - (leadingBit q.den q.den : ℤ) - 1

/-- The integer nearest to `m ≥ 0`, ties to even. -/
def roundHalfEven (m : ℚ) : ℤ :=
  if m - ⌊m⌋ < 1 / 2 then ⌊m⌋
  else if 1 / 2 < m - ⌊m⌋ then ⌊m⌋ + 1
  else if ⌊m⌋ % 2 = 0 then ⌊m⌋ else ⌊m⌋ + 1

/-- The unit in the last place of the binade of `q ≠ 0` in binary64: 53
significant bits, exponent not below `-1022` (gradual underflow). -/
def ulp (q : ℚ) : ℚ := pow2 (max (log2Floor |q|) (-1022) - 52)

/-- Rounding of a real result to binary64: round to nearest, ties to even,
overflow to an infinity. -/
def roundD (q : ℚ) : Dbl :=
  if q = 0 then .fin 0
  else if pow2 1024 ≤ (roundHalfEven (|q| / ulp q) : ℚ) * ulp q then .inf (decide (q < 0))
  else if q < 0 then .fin (-((roundHalfEven (|q| / ulp q) : ℚ) * ulp q))
  else .fin ((roundHalfEven (|q| / ulp q) : ℚ) * ulp q)

/-- IEEE subtraction. -/
def Dbl.sub : Dbl → Dbl → Dbl
  | .fin a, .fin b => roundD (a - b)
  | .fin _, .inf t => .inf (!t)
  | .inf s, .fin _ => .inf s
  | .inf s, .inf t => if s = t then .nan else .inf s
  | _, _ => .nan

/-- IEEE addition. -/
def Dbl.add : Dbl → Dbl → Dbl
  | .fin a, .fin b => roundD (a + b)
  | .fin _, .inf t => .inf t
  | .inf s, .fin _ => .inf s
  | .inf s, .inf t => if s = t then .inf s else .nan
  | _, _ => .nan

/-- IEEE multiplication. -/
def Dbl.mul : Dbl → Dbl → Dbl
  | .fin a, .fin b => roundD (a * b)
  | .fin a, .inf t => if a = 0 then .nan else .inf (xor (decide (a < 0)) t)
  | .inf s, .fin b => if b = 0 then .nan else .inf (xor s (decide (b < 0)))
  | .inf s, .inf t => .inf (xor s t)
  | _, _ => .nan

/-- IEEE division (a zero divisor is taken as `+0`). -/
def Dbl.div : Dbl → Dbl → Dbl
  | .fin a, .fin b =>
    if b = 0 then (if a = 0 then .nan else .inf (decide (a < 0))) else roundD (a / b)
  | .fin _, .inf _ => .fin 0
  | .inf s, .fin b => .inf (xor s (decide (b < 0)))
  | _, _ => .nan

/-- The arithmetic of the values computed by the scan (`p1`, `p2` and the cells
of `y`): how a finite value is embedded and how `-`, `/`, `*`, `+` act. -/
structure Arith (V : Type) where
  lit : ℚ → V
  sub : V → V → V
  div : V → V → V
  mul : V → V → V
  add : V → V → V

/-- Double-precision arithmetic. -/
def ieee : Arith Dbl :=
  { lit := Dbl.fin, sub := Dbl.sub, div := Dbl.div, mul := Dbl.mul, add := Dbl.add }

/-- Exact subtraction, undefined on an undefined operand. -/
def optSub : Option ℚ → Option ℚ → Option ℚ
  | some a, some b => some (a - b)
  | _, _ => none

/-- Exact division, undefined at a zero divisor and on an undefined operand. -/
def optDiv : Option ℚ → Option ℚ → Option ℚ
  | some a, some b => if b = 0 then none else some (a / b)
  | _, _ => none

/-- Exact multiplication, undefined on an undefined operand. -/
def optMul : Option ℚ → Option ℚ → Option ℚ
  | some a, some b => some (a * b)
  | _, _ => none

/-- Exact addition, undefined on an undefined operand. -/
def optAdd : Option ℚ → Option ℚ → Option ℚ
  | some a, some b => some (a + b)
  | _, _ => none

/-- Exact arithmetic in which `0/0`, and every operation on it, is the
undefined value `none`. -/
def exactArith : Arith (Option ℚ) :=
  { lit := some, sub := optSub, div := optDiv, mul := optMul, add := optAdd }

/-- The regime chain over an arithmetic `A`: `p2 = (ty[iy]-tx[ix])/(tx[ix+1]-tx[ix])`
and `p1 = 1-p2` are computed in `A`, and nothing stops the run at a zero
divisor. -/
def weightsM {V : Type} (A : Arith V) (inp : Input) (iy ix : Nat) : Except Err (V × V) :=
  match rd inp.ty iy with
  | .error e => .error e
  | .ok t =>
    match rd inp.tx ix with
    | .error e => .error e
    | .ok a =>
      if t < a then .ok (A.lit 1, A.lit 0)
      else
        match rd inp.tx (ix + 1) with
        | .error e => .error e
        | .ok b =>
          if b < t then .ok (A.lit 0, A.lit 1)
          else
            .ok (A.sub (A.lit 1) (A.div (A.sub (A.lit t) (A.lit a)) (A.sub (A.lit b) (A.lit a))),
              A.div (A.sub (A.lit t) (A.lit a)) (A.sub (A.lit b) (A.lit a)))

/-- The column loop over an arithmetic `A`, on a buffer with the log of the
indices written so far: each assignment `y[c*ny+iy] = p1*x[c*nx+ix] +
p2*x[c*nx+ix+1]` stores the value and appends its index to the log. -/
def colLoopM {V : Type} (A : Arith V) (inp : Input) (p1 p2 : V) (ix iy : Nat) :
    Nat → Nat → List V × List Nat → Except Err (List V × List Nat)
  | 0, _, s => .ok s
  | k + 1, c, s =>
    match rd inp.x (c * inp.nx + ix) with
    | .error e => .error e
    | .ok a =>
      match rd inp.x (c * inp.nx + ix + 1) with
      | .error e => .error e
      | .ok b =>
        if c * inp.ny + iy < s.1.length then
          colLoopM A inp p1 p2 ix iy k (c + 1)
            (s.1.set (c * inp.ny + iy) (A.add (A.mul p1 (A.lit a)) (A.mul p2 (A.lit b))),
              s.2 ++ [c * inp.ny + iy])
        else .error .outOfBounds

/-- One pass through the body of the outer loop over an arithmetic `A`: the
`while` loop (the same `advance`), the regime chain, the column loop. -/
def bodyM {V : Type} (A : Arith V) (inp : Input) (iy ix : Nat) (s : List V × List Nat) :
    Except Err (Nat × List V × List Nat) :=
  match advance inp iy ix with
  | .error e => .error e
  | .ok ix1 =>
    match weightsM A inp iy ix1 with
    | .error e => .error e
    | .ok (p1, p2) =>
      match colLoopM A inp p1 p2 ix1 iy inp.ncolumns 0 s with
      | .error e => .error e
      | .ok s1 => .ok (ix1, s1)

/-- The state (cursor, buffer, write log) over an arithmetic `A` after the
first `k` passes of the outer loop `for(iy=0; iy<ny; iy++)`, started with
`ix = 0`, the zero buffer and the empty log. -/
def scanM {V : Type} (A : Arith V) (inp : Input) : Nat → Except Err (Nat × List V × List Nat)
  | 0 => .ok (0, List.replicate (inp.ny * inp.ncolumns) (A.lit 0), [])
  | k + 1 =>
    match scanM A inp k with
    | .error e => .error e
    | .ok (ix, s) => bodyM A inp k ix s

/-- The whole function over an arithmetic `A`: the buffer after `ny` passes. -/
def mexFunctionM {V : Type} (A : Arith V) (inp : Input) : Except Err (List V) :=
  match scanM A inp inp.ny with
  | .error e => .error e
  | .ok (_, y, _) => .ok y

/-- Equality of two results is decidable. -/
instance decEqResult {α : Type} [DecidableEq α] : DecidableEq (Except Err α)
  | .ok a, .ok b =>
    if h : a = b then isTrue (by rw [h]) else isFalse (fun h1 => h (by cases h1; rfl))
  | .error e, .error f =>
    if h : e = f then isTrue (by rw [h]) else isFalse (fun h1 => h (by cases h1; rfl))
  | .ok _, .error _ => isFalse (fun h => by cases h)
  | .error _, .ok _ => isFalse (fun h => by cases h)

/-- No two adjacent SourceTimes are equal. -/
def DistinctKnots (inp : Input) : Prop :=
  ∀ i, i + 1 < inp.nx → srcTime inp (i + 1) ≠ srcTime inp i

/-- Two knots `[0, 5]`, the constant column `[3, 3]`, the queries `[1, 2]`:
all of them doubles, and the quotients `1/5` and `2/5` are not. -/
def exampleRounding : Input :=
  { nx := 2, ncolumns := 1, ny := 2, tx := [0, 5], x := [3, 3], ty := [1, 2] }

/-- A duplicate knot: SourceTimes `[1, 1]`, the constant column `[5, 5]`, the
queries `[0, 1, 2]`. -/
def exampleDuplicate : Input :=
  { nx := 2, ncolumns := 1, ny := 3, tx := [1, 1], x := [5, 5], ty := [0, 1, 2] }


/-- Whether a value is a double: rounding leaves it unchanged. -/
def isDouble (q : ℚ) : Bool := decide (roundD q = .fin q)

/-! ## Reads and writes -/

theorem rd_of_lt {a : List ℚ} {i : Nat} (h : i < a.length) : rd a i = .ok (a.getD i 0) := by
  simp [rd, List.getElem?_eq_getElem h]

theorem rd_of_le {a : List ℚ} {i : Nat} (h : a.length ≤ i) : rd a i = .error .outOfBounds := by
  simp [rd, List.getElem?_eq_none h]

theorem rd_ok_iff {a : List ℚ} {i : Nat} {v : ℚ} :
    rd a i = .ok v ↔ i < a.length ∧ a.getD i 0 = v := by
  by_cases h : i < a.length
  · rw [rd_of_lt h]; simp [h]
  · rw [rd_of_le (Nat.le_of_not_lt h)]; simp [h]

theorem rd_error_iff {a : List ℚ} {i : Nat} {e : Err} :
    rd a i = .error e ↔ a.length ≤ i ∧ e = .outOfBounds := by
  by_cases h : i < a.length
  · rw [rd_of_lt h]; simp; omega
  · rw [rd_of_le (Nat.le_of_not_lt h)]
    simp [Nat.le_of_not_lt h]
    exact eq_comm

theorem wr_ok_iff {a : List ℚ} {i : Nat} {v : ℚ} {a1 : List ℚ} :
    wr a i v = .ok a1 ↔ i < a.length ∧ a1 = a.set i v := by
  unfold wr
  split <;> simp [*, eq_comm]

theorem wr_error_iff {a : List ℚ} {i : Nat} {v : ℚ} {e : Err} :
    wr a i v = .error e ↔ a.length ≤ i ∧ e = .outOfBounds := by
  unfold wr
  split
  · simp; omega
  · simp; constructor
    · intro h; exact ⟨by omega, h.symm⟩
    · intro h; exact h.2.symm

theorem getD_set (a : List ℚ) (i j : Nat) (v : ℚ) (h : i < a.length) :
    (a.set i v).getD j 0 = if i = j then v else a.getD j 0 := by
  simp only [List.getD_eq_getElem?_getD, List.getElem?_set, h, if_true]
  split <;> simp

/-! ## The `while` loop -/

theorem whileCond_eval (inp : Input) (iy ix : Nat) (htx : inp.tx.length = inp.nx)
    (hiy : iy < inp.ty.length) :
    whileCond inp iy ix
      = .ok (decide (ix + 2 < inp.nx ∧ srcTime inp (ix + 1) < qryTime inp iy)) := by
  unfold whileCond
  by_cases h : ix + 2 < inp.nx
  · have h1 : (ix : Int) < (inp.nx : Int) - 2 := by omega
    rw [if_pos h1, rd_of_lt (by omega), rd_of_lt hiy]
    simp [h, srcTime, qryTime]
  · have h1 : ¬ (ix : Int) < (inp.nx : Int) - 2 := by omega
    rw [if_neg h1]
    simp [h]

theorem whileCond_ne_outOfFuel (inp : Input) (iy ix : Nat) :
    whileCond inp iy ix ≠ .error .outOfFuel := by
  unfold whileCond
  split
  · split
    · rename_i e h; intro h2
      have := (rd_error_iff.1 h).2
      simp at h2; rw [h2] at this; cases this
    · split
      · rename_i e h; intro h2
        have := (rd_error_iff.1 h).2
        simp at h2; rw [h2] at this; cases this
      · simp
  · simp

theorem whileCond_true_lt (inp : Input) (iy ix : Nat) (h : whileCond inp iy ix = .ok true) :
    ix + 2 < inp.nx := by
  unfold whileCond at h
  split at h
  · omega
  · simp at h

/-- The fuel is never exhausted when it exceeds the distance of the cursor to `nx-2`. -/
theorem advanceFuel_ne_outOfFuel (inp : Input) (iy : Nat) :
    ∀ (fuel ix : Nat), 1 ≤ fuel → inp.nx ≤ ix + 1 + fuel →
      advanceFuel inp iy fuel ix ≠ .error .outOfFuel := by
  intro fuel
  induction fuel with
  | zero => intro ix h; omega
  | succ n ih =>
    intro ix _ h2
    unfold advanceFuel
    split
    · rename_i e he
      intro h3
      simp at h3
      rw [h3] at he
      exact whileCond_ne_outOfFuel inp iy ix he
    · rename_i he
      have := whileCond_true_lt inp iy ix he
      exact ih (ix + 1) (by omega) (by omega)
    · simp

/-- The `while` loop never runs out of the fuel `advance` gives it. -/
theorem advance_ne_outOfFuel (inp : Input) (iy ix : Nat) :
    advance inp iy ix ≠ .error .outOfFuel :=
  advanceFuel_ne_outOfFuel inp iy (inp.nx + 1) ix (by omega) (by omega)

/-- Loop exit, forward form: on well-sized buffers the loop returns a cursor
`ix1 ≥ ix` that has skipped only knots below the query and stops at `nx-2` or
at a knot not below the query. -/
theorem advanceFuel_eval (inp : Input) (iy : Nat) (htx : inp.tx.length = inp.nx)
    (hiy : iy < inp.ty.length) :
    ∀ (fuel ix : Nat), 1 ≤ fuel → inp.nx ≤ ix + 1 + fuel →
      ∃ ix1, advanceFuel inp iy fuel ix = .ok ix1 ∧ ix ≤ ix1 ∧
        (ix + 2 ≤ inp.nx → ix1 + 2 ≤ inp.nx) ∧ (inp.nx ≤ ix + 2 → ix1 = ix) ∧
        (∀ j, ix ≤ j → j < ix1 → srcTime inp (j + 1) < qryTime inp iy) ∧
        (ix1 + 2 < inp.nx → qryTime inp iy ≤ srcTime inp (ix1 + 1)) := by
  intro fuel
  induction fuel with
  | zero => intro ix h; omega
  | succ n ih =>
    intro ix _ h2
    unfold advanceFuel
    rw [whileCond_eval inp iy ix htx hiy]
    by_cases hc : ix + 2 < inp.nx ∧ srcTime inp (ix + 1) < qryTime inp iy
    · simp only [hc, and_self, decide_True]
      obtain ⟨ix1, h3, h4, h5, h6, h7, h8⟩ := ih (ix + 1) (by omega) (by omega)
      refine ⟨ix1, h3, by omega, fun _ => h5 (by omega), fun h => by omega, ?_, h8⟩
      intro j hj1 hj2
      by_cases hj : j = ix
      · rw [hj]; exact hc.2
      · exact h7 j (by omega) hj2
    · simp only [hc, decide_False]
      refine ⟨ix, rfl, le_refl _, fun h => h, fun _ => rfl, fun j h1 h2 => by omega, ?_⟩
      intro h
      exact not_lt.1 (fun h9 => hc ⟨h, h9⟩)

theorem advance_eval (inp : Input) (iy ix : Nat) (htx : inp.tx.length = inp.nx)
    (hiy : iy < inp.ty.length) :
    ∃ ix1, advance inp iy ix = .ok ix1 ∧ ix ≤ ix1 ∧
      (ix + 2 ≤ inp.nx → ix1 + 2 ≤ inp.nx) ∧ (inp.nx ≤ ix + 2 → ix1 = ix) ∧
      (∀ j, ix ≤ j → j < ix1 → srcTime inp (j + 1) < qryTime inp iy) ∧
      (ix1 + 2 < inp.nx → qryTime inp iy ≤ srcTime inp (ix1 + 1)) :=
  advanceFuel_eval inp iy htx hiy (inp.nx + 1) ix (by omega) (by omega)

/-! ## The regime chain -/

theorem weights_eval (inp : Input) (iy ix : Nat) (htx : inp.tx.length = inp.nx)
    (hiy : iy < inp.ty.length) (hix : ix + 2 ≤ inp.nx) :
    weights inp iy ix =
      if qryTime inp iy < srcTime inp ix then .ok (1, 0)
      else if srcTime inp (ix + 1) < qryTime inp iy then .ok (0, 1)
      else if srcTime inp (ix + 1) - srcTime inp ix = 0 then .error .divByZero
      else .ok (1 - (qryTime inp iy - srcTime inp ix) / (srcTime inp (ix + 1) - srcTime inp ix),
                (qryTime inp iy - srcTime inp ix) / (srcTime inp (ix + 1) - srcTime inp ix)) := by
  unfold weights
  rw [rd_of_lt hiy, rd_of_lt (show ix < inp.tx.length by omega),
    rd_of_lt (show ix + 1 < inp.tx.length by omega)]
  rfl

/-! ## The column loop -/

theorem mul_add_lt {c n i m : Nat} (hc : c < n) (hi : i < m) : c * m + i < m * n := by
  calc c * m + i < c * m + m := by omega
    _ = (c + 1) * m := by ring
    _ ≤ n * m := Nat.mul_le_mul_right m hc
    _ = m * n := Nat.mul_comm n m

theorem row_index_inj {c c1 n i i1 : Nat} (hi : i < n) (hi1 : i1 < n)
    (h : c * n + i = c1 * n + i1) : c = c1 ∧ i = i1 := by
  have h1 : (c * n + i) % n = (c1 * n + i1) % n := by rw [h]
  have h2 : (c * n + i) / n = (c1 * n + i1) / n := by rw [h]
  rw [Nat.mul_comm c n, Nat.mul_comm c1 n] at h1 h2
  rw [Nat.mul_add_mod, Nat.mul_add_mod, Nat.mod_eq_of_lt hi, Nat.mod_eq_of_lt hi1] at h1
  rw [Nat.mul_add_div (by omega), Nat.mul_add_div (by omega), Nat.div_eq_of_lt hi,
    Nat.div_eq_of_lt hi1] at h2
  exact ⟨by omega, h1⟩

/-- What a successful column loop has done: the buffer keeps its length, only
the cells of row `iy` in the columns visited change, and each of those holds
the blend of the two source samples (which were read in bounds). -/
theorem colLoop_inv (inp : Input) (p1 p2 : ℚ) (ix iy : Nat) (hiy : iy < inp.ny) :
    ∀ (k c : Nat) (y y1 : List ℚ), colLoop inp p1 p2 ix iy k c y = .ok y1 →
      y1.length = y.length ∧
      (∀ idx, (∀ c1, c ≤ c1 → c1 < c + k → idx ≠ c1 * inp.ny + iy) →
        y1.getD idx 0 = y.getD idx 0) ∧
      (∀ c1, c ≤ c1 → c1 < c + k →
        c1 * inp.nx + ix + 1 < inp.x.length ∧ c1 * inp.ny + iy < y.length ∧
        y1.getD (c1 * inp.ny + iy) 0 = p1 * srcVal inp ix c1 + p2 * srcVal inp (ix + 1) c1) := by
  intro k
  induction k with
  | zero =>
    intro c y y1 h
    simp only [colLoop, Except.ok.injEq] at h
    subst h
    exact ⟨rfl, fun _ _ => rfl, fun c1 h1 h2 => by omega⟩
  | succ k ih =>
    intro c y y1 h
    unfold colLoop at h
    split at h
    · cases h
    · rename_i a ha
      split at h
      · cases h
      · rename_i b hb
        split at h
        · cases h
        · rename_i y2 hw
          obtain ⟨hw1, hw2⟩ := wr_ok_iff.1 hw
          obtain ⟨ha1, ha2⟩ := rd_ok_iff.1 ha
          obtain ⟨hb1, hb2⟩ := rd_ok_iff.1 hb
          obtain ⟨h1, h2, h3⟩ := ih (c + 1) y2 y1 h
          have hlen : y2.length = y.length := by rw [hw2]; simp
          refine ⟨by rw [h1, hlen], ?_, ?_⟩
          · intro idx hidx
            rw [h2 idx (fun c1 hc1 hc2 => hidx c1 (by omega) (by omega)), hw2,
              getD_set _ _ _ _ hw1, if_neg]
            exact fun h9 => hidx c (le_refl _) (by omega) h9.symm
          · intro c1 hc1 hc2
            by_cases hc : c1 = c
            · subst hc
              refine ⟨hb1, hw1, ?_⟩
              rw [h2 _ (fun c2 hc3 _ h9 => by
                have := (row_index_inj hiy hiy h9).1; omega), hw2, getD_set _ _ _ _ hw1,
                if_pos rfl, ← ha2, ← hb2]
              simp [srcVal, Nat.add_assoc]
            · obtain ⟨h4, h5, h6⟩ := h3 c1 (by omega) (by omega)
              exact ⟨h4, by omega, h6⟩

/-- The column loop succeeds when all its reads and writes are in bounds. -/
theorem colLoop_ok (inp : Input) (p1 p2 : ℚ) (ix iy : Nat) :
    ∀ (k c : Nat) (y : List ℚ),
      (∀ c1, c ≤ c1 → c1 < c + k →
        c1 * inp.nx + ix + 1 < inp.x.length ∧ c1 * inp.ny + iy < y.length) →
      ∃ y1, colLoop inp p1 p2 ix iy k c y = .ok y1 := by
  intro k
  induction k with
  | zero => intro c y _; exact ⟨y, rfl⟩
  | succ k ih =>
    intro c y h
    obtain ⟨h1, h2⟩ := h c (le_refl _) (by omega)
    unfold colLoop
    rw [rd_of_lt (show c * inp.nx + ix < inp.x.length by omega), rd_of_lt h1]
    simp only [wr, h2, if_true]
    apply ih
    intro c1 hc1 hc2
    simpa using h c1 (by omega) (by omega)

/-! ## The loop body and the scan -/

/-- What a successful pass through the loop body has done. -/
theorem body_inv (inp : Input) (iy ix ix1 : Nat) (y y1 : List ℚ) (hiy : iy < inp.ny)
    (h : body inp iy ix y = .ok (ix1, y1)) :
    ∃ p1 p2, advance inp iy ix = .ok ix1 ∧ weights inp iy ix1 = .ok (p1, p2) ∧
      y1.length = y.length ∧
      (∀ idx, (∀ c, c < inp.ncolumns → idx ≠ c * inp.ny + iy) → y1.getD idx 0 = y.getD idx 0) ∧
      (∀ c, c < inp.ncolumns →
        cell inp y1 iy c = p1 * srcVal inp ix1 c + p2 * srcVal inp (ix1 + 1) c) := by
  unfold body at h
  split at h
  · cases h
  · rename_i ix2 ha
    split at h
    · cases h
    · rename_i p1 p2 hw
      split at h
      · cases h
      · rename_i y2 hc
        simp only [Except.ok.injEq, Prod.mk.injEq] at h
        obtain ⟨h1, h2⟩ := h
        subst h1 h2
        obtain ⟨h3, h4, h5⟩ := colLoop_inv inp p1 p2 ix2 iy hiy _ _ _ _ hc
        refine ⟨p1, p2, ha, hw, h3, ?_, ?_⟩
        · intro idx hidx
          exact h4 idx (fun c _ hc2 => hidx c (by omega))
        · intro c hc1
          exact (h5 c (Nat.zero_le _) (by omega)).2.2

theorem outer_succ (inp : Input) :
    ∀ (k iy ix : Nat) (y : List ℚ),
      outer inp (k + 1) iy ix y =
        match outer inp k iy ix y with
        | .error e => .error e
        | .ok (ix1, y1) => body inp (iy + k) ix1 y1 := by
  intro k
  induction k with
  | zero =>
    intro iy ix y
    simp only [outer, Nat.add_zero]
    cases body inp iy ix y with
    | error e => rfl
    | ok s => rfl
  | succ k ih =>
    intro iy ix y
    rw [outer]
    cases hb : body inp iy ix y with
    | error e => simp [outer, hb]
    | ok s =>
      obtain ⟨ix1, y1⟩ := s
      simp only []
      rw [ih (iy + 1) ix1 y1]
      conv => rhs; rw [outer]
      simp only [hb, Nat.add_assoc, Nat.add_comm 1 k]

theorem scan_zero (inp : Input) : scan inp 0 = .ok (0, initY inp) := rfl

/-- The scan over `k+1` queries is the scan over `k` queries followed by the
loop body at query index `k`. -/
theorem scan_succ (inp : Input) (k : Nat) :
    scan inp (k + 1) =
      match scan inp k with
      | .error e => .error e
      | .ok (ix, y) => body inp k ix y := by
  unfold scan
  rw [outer_succ]
  simp

theorem scan_prefix_ok (inp : Input) (n : Nat) :
    ∀ (k : Nat) (s : Nat × List ℚ), scan inp (k + n) = .ok s → ∃ s1, scan inp k = .ok s1 := by
  induction n with
  | zero => intro k s h; exact ⟨s, h⟩
  | succ n ih =>
    intro k s h
    rw [← Nat.add_assoc, scan_succ] at h
    cases hs : scan inp (k + n) with
    | error e => rw [hs] at h; cases h
    | ok s1 => exact ih k s1 hs

theorem scan_length (inp : Input) :
    ∀ (k ix : Nat) (y : List ℚ), k ≤ inp.ny → scan inp k = .ok (ix, y) →
      y.length = inp.ny * inp.ncolumns := by
  intro k
  induction k with
  | zero =>
    intro ix y _ h
    rw [scan_zero] at h
    simp only [Except.ok.injEq, Prod.mk.injEq] at h
    rw [← h.2]; simp [initY]
  | succ k ih =>
    intro ix y hk h
    rw [scan_succ] at h
    cases hs : scan inp k with
    | error e => rw [hs] at h; cases h
    | ok s =>
      obtain ⟨ix0, y0⟩ := s
      rw [hs] at h
      obtain ⟨p1, p2, _, _, h3, _⟩ := body_inv inp k ix0 ix y0 y (by omega) h
      rw [h3]; exact ih ix0 y0 (by omega) hs

/-- Rows already computed are not touched by later passes. -/
theorem scan_keeps_row (inp : Input) (j c : Nat) (n : Nat) :
    ∀ (ixj ixf : Nat) (yj yf : List ℚ), j + 1 + n ≤ inp.ny →
      scan inp (j + 1) = .ok (ixj, yj) → scan inp (j + 1 + n) = .ok (ixf, yf) →
      cell inp yf j c = cell inp yj j c := by
  induction n with
  | zero =>
    intro ixj ixf yj yf _ h1 h2
    rw [Nat.add_zero, h1] at h2
    simp only [Except.ok.injEq, Prod.mk.injEq] at h2
    rw [h2.2]
  | succ n ih =>
    intro ixj ixf yj yf hn h1 h2
    rw [← Nat.add_assoc, scan_succ] at h2
    cases hs : scan inp (j + 1 + n) with
    | error e => rw [hs] at h2; cases h2
    | ok s =>
      obtain ⟨ix0, y0⟩ := s
      rw [hs] at h2
      obtain ⟨p1, p2, _, _, _, h4, _⟩ := body_inv inp _ ix0 ixf y0 yf (by omega) h2
      rw [← ih ixj ix0 yj y0 (by omega) h1 hs]
      unfold cell
      apply h4
      intro c1 _ h9
      have := (row_index_inj (show j < inp.ny by omega) (show j + 1 + n < inp.ny by omega) h9).2
      omega

/-- Row `j` of the final buffer: it was produced by the loop body at query
index `j`, started from the state of the scan after `j` queries. -/
theorem scan_row (inp : Input) (n j ixf : Nat) (yf : List ℚ) (hn : n ≤ inp.ny) (hj : j < n)
    (h : scan inp n = .ok (ixf, yf)) :
    ∃ ixb yb ixj p1 p2, scan inp j = .ok (ixb, yb) ∧ advance inp j ixb = .ok ixj ∧
      weights inp j ixj = .ok (p1, p2) ∧
      ∀ c, c < inp.ncolumns →
        cell inp yf j c = p1 * srcVal inp ixj c + p2 * srcVal inp (ixj + 1) c := by
  have hn1 : n = j + 1 + (n - (j + 1)) := by omega
  rw [hn1] at h
  obtain ⟨⟨ixj, yj⟩, hs1⟩ := scan_prefix_ok inp _ _ _ h
  have hs2 := hs1
  rw [scan_succ] at hs2
  cases hs : scan inp j with
  | error e => rw [hs] at hs2; cases hs2
  | ok s =>
    obtain ⟨ixb, yb⟩ := s
    rw [hs] at hs2
    obtain ⟨p1, p2, h1, h2, _, _, h5⟩ := body_inv inp j ixb ixj yb yj (by omega) hs2
    refine ⟨ixb, yb, ixj, p1, p2, rfl, h1, h2, ?_⟩
    intro c hc
    rw [scan_keeps_row inp j c _ ixj ixf yj yf (by omega) hs1 h, h5 c hc]

/-! ## Ordered times -/

theorem strictInc_lt (inp : Input) (hs : StrictInc inp) (htx : inp.tx.length = inp.nx)
    (i j : Nat) (hij : i < j) (hj : j < inp.nx) : srcTime inp i < srcTime inp j := by
  have h := List.pairwise_iff_getElem.1 hs i j (by omega) (by omega) hij
  unfold srcTime
  rw [List.getD_eq_getElem _ _ (show i < inp.tx.length by omega),
    List.getD_eq_getElem _ _ (show j < inp.tx.length by omega)]
  exact h

theorem strictInc_le (inp : Input) (hs : StrictInc inp) (htx : inp.tx.length = inp.nx)
    (i j : Nat) (hij : i ≤ j) (hj : j < inp.nx) : srcTime inp i ≤ srcTime inp j := by
  rcases Nat.eq_or_lt_of_le hij with h | h
  · rw [h]
  · exact le_of_lt (strictInc_lt inp hs htx i j h hj)

theorem nonDec_le (inp : Input) (hq : NonDec inp) (hty : inp.ty.length = inp.ny)
    (i j : Nat) (hij : i ≤ j) (hj : j < inp.ny) : qryTime inp i ≤ qryTime inp j := by
  rcases Nat.eq_or_lt_of_le hij with h | h
  · rw [h]
  · have h1 := List.pairwise_iff_getElem.1 hq i j (by omega) (by omega) h
    unfold qryTime
    rw [List.getD_eq_getElem _ _ (show i < inp.ty.length by omega),
      List.getD_eq_getElem _ _ (show j < inp.ty.length by omega)]
    exact h1

/-! ## Totality of the scan -/

/-- On well-sized buffers with `nx ≥ 2` the regime chain can only fail by a
division by zero. -/
theorem weights_total (inp : Input) (iy ix : Nat) (htx : inp.tx.length = inp.nx)
    (hiy : iy < inp.ty.length) (hix : ix + 2 ≤ inp.nx) :
    (weights inp iy ix = .error .divByZero ∧ srcTime inp (ix + 1) = srcTime inp ix) ∨
      ∃ p1 p2, weights inp iy ix = .ok (p1, p2) := by
  rw [weights_eval inp iy ix htx hiy hix]
  split
  · exact Or.inr ⟨_, _, rfl⟩
  · split
    · exact Or.inr ⟨_, _, rfl⟩
    · split
      · rename_i h
        exact Or.inl ⟨rfl, sub_eq_zero.1 h⟩
      · exact Or.inr ⟨_, _, rfl⟩

/-- One pass through the loop body on well-sized buffers, from a cursor in
range: the cursor stays in range and does not decrease, and the pass fails
only by a division by zero in the regime chain. -/
theorem body_eval (inp : Input) (hwf : WellFormed inp) (iy ix : Nat) (y : List ℚ)
    (hiy : iy < inp.ny) (hix : ix + 2 ≤ inp.nx) (hy : y.length = inp.ny * inp.ncolumns) :
    ∃ ix1, advance inp iy ix = .ok ix1 ∧ ix ≤ ix1 ∧ ix1 + 2 ≤ inp.nx ∧
      ((weights inp iy ix1 = .error .divByZero ∧ srcTime inp (ix1 + 1) = srcTime inp ix1 ∧
          body inp iy ix y = .error .divByZero) ∨
        ∃ p1 p2 y1, weights inp iy ix1 = .ok (p1, p2) ∧ body inp iy ix y = .ok (ix1, y1)) := by
  obtain ⟨htx, hx, hty⟩ := hwf
  obtain ⟨ix1, h1, h2, h3, _, _, _⟩ := advance_eval inp iy ix htx (by omega)
  refine ⟨ix1, h1, h2, h3 hix, ?_⟩
  rcases weights_total inp iy ix1 htx (by omega) (h3 hix) with ⟨h4, h5⟩ | ⟨p1, p2, h4⟩
  · left
    refine ⟨h4, h5, ?_⟩
    simp [body, h1, h4]
  · right
    obtain ⟨y1, h6⟩ := colLoop_ok inp p1 p2 ix1 iy inp.ncolumns 0 y (by
      intro c _ hc
      have hc1 : c < inp.ncolumns := by omega
      have h7 := mul_add_lt hc1 (show ix1 + 1 < inp.nx by omega)
      have h8 := mul_add_lt hc1 hiy
      constructor
      · rw [hx]; omega
      · rw [hy]; omega)
    refine ⟨p1, p2, y1, h4, ?_⟩
    simp [body, h1, h4, h6]

/-- With strictly increasing SourceTimes the regime chain never divides by zero. -/
theorem weights_ne_divByZero (inp : Input) (hs : StrictInc inp) (htx : inp.tx.length = inp.nx)
    (ix : Nat) (hix : ix + 2 ≤ inp.nx) : srcTime inp (ix + 1) ≠ srcTime inp ix :=
  ne_of_gt (strictInc_lt inp hs htx ix (ix + 1) (by omega) (by omega))

/-- The cursor stays within `0..nx-2` along the scan, and every knot the
cursor has passed lies strictly below one of the queries seen so far. -/
theorem scan_cursor_inv (inp : Input) (hwf : WellFormed inp) (hnx : 2 ≤ inp.nx) :
    ∀ (k ix : Nat) (y : List ℚ), k ≤ inp.ny → scan inp k = .ok (ix, y) →
      ix + 2 ≤ inp.nx ∧ ∀ i, i < ix → ∃ j, j < k ∧ srcTime inp (i + 1) < qryTime inp j := by
  intro k
  induction k with
  | zero =>
    intro ix y _ h
    rw [scan_zero] at h
    simp only [Except.ok.injEq, Prod.mk.injEq] at h
    rw [← h.1]
    exact ⟨by omega, fun i hi => by omega⟩
  | succ k ih =>
    intro ix y hk h
    rw [scan_succ] at h
    cases hs : scan inp k with
    | error e => rw [hs] at h; cases h
    | ok s =>
      obtain ⟨ix0, y0⟩ := s
      rw [hs] at h
      obtain ⟨h1, h2⟩ := ih ix0 y0 (by omega) hs
      obtain ⟨_, _, h3, _⟩ := body_inv inp k ix0 ix y0 y (by omega) h
      obtain ⟨ix1, h4, h5, h6, _, h7, _⟩ := advance_eval inp k ix0 hwf.1 (by rw [hwf.2.2]; omega)
      rw [h3] at h4
      simp only [Except.ok.injEq] at h4
      subst h4
      refine ⟨h6 h1, ?_⟩
      intro i hi
      by_cases hi0 : i < ix0
      · obtain ⟨j, hj1, hj2⟩ := h2 i hi0
        exact ⟨j, by omega, hj2⟩
      · exact ⟨k, by omega, h7 i (by omega) hi⟩

/-- With strictly increasing SourceTimes the scan over any prefix of the
queries returns a state. -/
theorem scan_ok (inp : Input) (hwf : WellFormed inp) (hnx : 2 ≤ inp.nx) (hs : StrictInc inp) :
    ∀ (k : Nat), k ≤ inp.ny → ∃ ix y, scan inp k = .ok (ix, y) := by
  intro k
  induction k with
  | zero => intro _; exact ⟨0, initY inp, rfl⟩
  | succ k ih =>
    intro hk
    obtain ⟨ix, y, h⟩ := ih (by omega)
    have h1 := (scan_cursor_inv inp hwf hnx k ix y (by omega) h).1
    have h2 := scan_length inp k ix y (by omega) h
    obtain ⟨ix1, _, _, h3, h4⟩ := body_eval inp hwf k ix y (by omega) h1 h2
    rcases h4 with ⟨_, h5, _⟩ | ⟨p1, p2, y1, _, h5⟩
    · exact absurd h5 (weights_ne_divByZero inp hs hwf.1 ix1 h3)
    · exact ⟨ix1, y1, by rw [scan_succ, h]; exact h5⟩

/-! ## Rows of the result -/

/-- The regime a successful chain went through. -/
theorem weights_regime (inp : Input) (iy ix : Nat) (p1 p2 : ℚ) (htx : inp.tx.length = inp.nx)
    (hiy : iy < inp.ty.length) (hix : ix + 2 ≤ inp.nx) (h : weights inp iy ix = .ok (p1, p2)) :
    (qryTime inp iy < srcTime inp ix ∧ p1 = 1 ∧ p2 = 0) ∨
    (srcTime inp ix ≤ qryTime inp iy ∧ srcTime inp (ix + 1) < qryTime inp iy ∧
      p1 = 0 ∧ p2 = 1) ∨
    (srcTime inp ix ≤ qryTime inp iy ∧ qryTime inp iy ≤ srcTime inp (ix + 1) ∧
      srcTime inp (ix + 1) - srcTime inp ix ≠ 0 ∧
      p2 = (qryTime inp iy - srcTime inp ix) / (srcTime inp (ix + 1) - srcTime inp ix) ∧
      p1 = 1 - p2) := by
  rw [weights_eval inp iy ix htx hiy hix] at h
  split at h
  · rename_i h1
    simp only [Except.ok.injEq, Prod.mk.injEq] at h
    exact Or.inl ⟨h1, h.1.symm, h.2.symm⟩
  · rename_i h1
    split at h
    · rename_i h2
      simp only [Except.ok.injEq, Prod.mk.injEq] at h
      exact Or.inr (Or.inl ⟨not_lt.1 h1, h2, h.1.symm, h.2.symm⟩)
    · rename_i h2
      split at h
      · cases h
      · rename_i h3
        simp only [Except.ok.injEq, Prod.mk.injEq] at h
        refine Or.inr (Or.inr ⟨not_lt.1 h1, not_lt.1 h2, h3, h.2.symm, ?_⟩)
        rw [← h.1, ← h.2]

/-- Every row of the result, for strictly increasing SourceTimes and queries
in any order: the function returns a buffer of `ny*ncolumns` cells, and row
`iy` is the blend, with the weights of the regime chain, of the samples at
`ix` and `ix+1`, where `ix` is the cursor the `while` loop leaves at query
index `iy` (started from the cursor `ixb` of the scan after `iy` queries);
`ix` is in `0..nx-2`, every knot `1..ix` lies strictly below one of the
queries `0..iy`, and knot `ix+1` is not below query `iy` unless `ix = nx-2`. -/
theorem result_rows_cursor (inp : Input) (hwf : WellFormed inp) (hnx : 2 ≤ inp.nx)
    (hs : StrictInc inp) :
    ∃ y, mexFunction inp = .ok y ∧ y.length = inp.ny * inp.ncolumns ∧
      ∀ iy, iy < inp.ny → ∃ ixb yb ix p1 p2,
        scan inp iy = .ok (ixb, yb) ∧ advance inp iy ixb = .ok ix ∧ ix + 2 ≤ inp.nx ∧
        (∀ i, i < ix → ∃ j, j ≤ iy ∧ srcTime inp (i + 1) < qryTime inp j) ∧
        (ix + 2 < inp.nx → qryTime inp iy ≤ srcTime inp (ix + 1)) ∧
        weights inp iy ix = .ok (p1, p2) ∧
        ∀ c, c < inp.ncolumns →
          cell inp y iy c = p1 * srcVal inp ix c + p2 * srcVal inp (ix + 1) c := by
  obtain ⟨ixf, yf, hf⟩ := scan_ok inp hwf hnx hs inp.ny (le_refl _)
  refine ⟨yf, by simp [mexFunction, hf], scan_length inp _ ixf yf (le_refl _) hf, ?_⟩
  intro iy hiy
  obtain ⟨ixb, yb, ixj, p1, p2, h1, h2, h3, h4⟩ := scan_row inp inp.ny iy ixf yf (le_refl _) hiy hf
  obtain ⟨h5, h6⟩ := scan_cursor_inv inp hwf hnx iy ixb yb (by omega) h1
  obtain ⟨ix1, h7, h8, h9, _, h10, h11⟩ := advance_eval inp iy ixb hwf.1 (by rw [hwf.2.2]; omega)
  rw [h2] at h7
  simp only [Except.ok.injEq] at h7
  subst h7
  refine ⟨ixb, yb, ixj, p1, p2, h1, h2, h9 h5, ?_, h11, h3, h4⟩
  intro i hi
  by_cases hi0 : i < ixb
  · obtain ⟨j, hj1, hj2⟩ := h6 i hi0
    exact ⟨j, by omega, hj2⟩
  · exact ⟨iy, le_refl _, h10 i (by omega) hi⟩

theorem result_rows (inp : Input) (hwf : WellFormed inp) (hnx : 2 ≤ inp.nx)
    (hs : StrictInc inp) :
    ∃ y, mexFunction inp = .ok y ∧ y.length = inp.ny * inp.ncolumns ∧
      ∀ iy, iy < inp.ny → ∃ ix p1 p2, ix + 2 ≤ inp.nx ∧
        (∀ i, i < ix → ∃ j, j ≤ iy ∧ srcTime inp (i + 1) < qryTime inp j) ∧
        (ix + 2 < inp.nx → qryTime inp iy ≤ srcTime inp (ix + 1)) ∧
        weights inp iy ix = .ok (p1, p2) ∧
        ∀ c, c < inp.ncolumns →
          cell inp y iy c = p1 * srcVal inp ix c + p2 * srcVal inp (ix + 1) c := by
  obtain ⟨y, h1, h2, h3⟩ := result_rows_cursor inp hwf hnx hs
  refine ⟨y, h1, h2, ?_⟩
  intro iy hiy
  obtain ⟨_, _, ix, p1, p2, _, _, h⟩ := h3 iy hiy
  exact ⟨ix, p1, p2, h⟩

/-- The value of a row at a cursor that is the bracket of its query: for any
bracket `i` that contains the query the blend is the linear interpolation
between samples `i` and `i+1`. -/
theorem bracket_blend (inp : Input) (htx : inp.tx.length = inp.nx) (hs : StrictInc inp)
    (iy ix i : Nat) (p1 p2 u v u1 v1 : ℚ) (hiy : iy < inp.ty.length) (hix : ix + 2 ≤ inp.nx)
    (hlow : ∀ k, k < ix → srcTime inp (k + 1) < qryTime inp iy)
    (hup : ix + 2 < inp.nx → qryTime inp iy ≤ srcTime inp (ix + 1))
    (hw : weights inp iy ix = .ok (p1, p2)) (hi : i + 2 ≤ inp.nx)
    (h1 : srcTime inp i ≤ qryTime inp iy) (h2 : qryTime inp iy ≤ srcTime inp (i + 1))
    (hu : i = ix → u1 = u ∧ v1 = v) (hv : i = ix + 1 → u1 = v) :
    p1 * u + p2 * v =
      (1 - (qryTime inp iy - srcTime inp i) / (srcTime inp (i + 1) - srcTime inp i)) * u1
        + (qryTime inp iy - srcTime inp i) / (srcTime inp (i + 1) - srcTime inp i) * v1 := by
  have hge : ix ≤ i := by
    by_contra hlt
    exact absurd (hlow i (by omega)) (not_lt.2 h2)
  rcases Nat.eq_or_lt_of_le hge with heq | hlt
  · subst heq
    obtain ⟨hu1, hv1⟩ := hu rfl
    subst hu1 hv1
    rcases weights_regime inp iy ix p1 p2 htx hiy hix hw with ⟨h3, _⟩ | ⟨_, h3, _⟩ | ⟨_, _, _, h5, h6⟩
    · exact absurd h3 (not_lt.2 h1)
    · exact absurd h3 (not_lt.2 h2)
    · rw [h6, h5]
  · have h3 := hup (by omega)
    have h4 := strictInc_le inp hs htx (ix + 1) i (by omega) (by omega)
    have h5 : qryTime inp iy = srcTime inp i := le_antisymm (le_trans h3 h4) h1
    have h6 : srcTime inp (ix + 1) = srcTime inp i := le_antisymm h4 (by rw [← h5]; exact h3)
    have h7 : i = ix + 1 := by
      by_contra hne
      exact absurd h6 (ne_of_lt (strictInc_lt inp hs htx (ix + 1) i (by omega) (by omega)))
    have hv1 := hv h7
    subst h7
    have h8 := strictInc_lt inp hs htx ix (ix + 1) (by omega) (by omega)
    rcases weights_regime inp iy ix p1 p2 htx hiy hix hw with ⟨h9, _⟩ | ⟨_, h9, _⟩ | ⟨_, _, h9, h10, h11⟩
    · rw [h5] at h9; exact absurd h9 (not_lt.2 (le_of_lt h8))
    · rw [h5] at h9; exact absurd h9 (lt_irrefl _)
    · rw [h5] at h10
      rw [div_self h9] at h10
      rw [h11, h10, h5, hv1]
      simp

/-- In a non-decreasing query sequence every knot the cursor has passed lies
strictly below the current query. -/
theorem passed_below (inp : Input) (hq : NonDec inp) (hty : inp.ty.length = inp.ny)
    (iy ix : Nat) (hiy : iy < inp.ny)
    (h : ∀ i, i < ix → ∃ j, j ≤ iy ∧ srcTime inp (i + 1) < qryTime inp j) :
    ∀ i, i < ix → srcTime inp (i + 1) < qryTime inp iy := by
  intro i hi
  obtain ⟨j, hj1, hj2⟩ := h i hi
  exact lt_of_lt_of_le hj2 (nonDec_le inp hq hty j iy hj1 hiy)

/-! ## The reference bracket -/

theorem refBracket_spec (inp : Input) (t : ℚ) (hnx : 2 ≤ inp.nx) :
    refBracket inp t + 2 ≤ inp.nx ∧
      (∀ i, i < refBracket inp t → srcTime inp (i + 1) < t) ∧
      (refBracket inp t + 2 < inp.nx → t ≤ srcTime inp (refBracket inp t + 1)) := by
  unfold refBracket
  cases hf : (List.range (inp.nx - 1)).find?
      (fun ix => decide (ix + 2 = inp.nx ∨ t ≤ srcTime inp (ix + 1))) with
  | none =>
    rw [List.find?_range_eq_none] at hf
    have := hf (inp.nx - 2) (by omega)
    simp at this
    omega
  | some r =>
    rw [List.find?_range_eq_some] at hf
    obtain ⟨h1, h2, h3⟩ := hf
    simp only [List.mem_range, decide_eq_true_eq] at h1 h2
    simp only [Option.getD_some]
    refine ⟨by omega, ?_, ?_⟩
    · intro i hi
      have := h3 i hi
      simp only [Bool.not_eq_true', decide_eq_false_iff_not, not_or, not_le] at this
      exact this.2
    · intro h
      rcases h1 with h1 | h1
      · omega
      · exact h1

/-- A cursor with the properties of the reference bracket is the reference bracket. -/
theorem bracket_unique (inp : Input) (t : ℚ) (a b : Nat)
    (ha1 : ∀ i, i < a → srcTime inp (i + 1) < t)
    (ha2 : a + 2 < inp.nx → t ≤ srcTime inp (a + 1))
    (hb0 : b + 2 ≤ inp.nx) (hb1 : ∀ i, i < b → srcTime inp (i + 1) < t)
    (hb2 : b + 2 < inp.nx → t ≤ srcTime inp (b + 1)) (ha0 : a + 2 ≤ inp.nx) : a = b := by
  rcases Nat.lt_trichotomy a b with h | h | h
  · exact absurd (hb1 a h) (not_lt.2 (ha2 (by omega)))
  · exact h
  · exact absurd (ha1 b h) (not_lt.2 (hb2 (by omega)))

theorem weights_eq_ref (inp : Input) (iy ix : Nat) (p1 p2 : ℚ) (htx : inp.tx.length = inp.nx)
    (hiy : iy < inp.ty.length) (hix : ix + 2 ≤ inp.nx) (h : weights inp iy ix = .ok (p1, p2)) :
    refWeights inp (qryTime inp iy) ix = (p1, p2) := by
  rw [weights_eval inp iy ix htx hiy hix] at h
  unfold refWeights
  split
  · rename_i h1
    rw [if_pos h1] at h
    simpa using h
  · rename_i h1
    rw [if_neg h1] at h
    split
    · rename_i h2
      rw [if_pos h2] at h
      simpa using h
    · rename_i h2
      rw [if_neg h2] at h
      split at h
      · cases h
      · simpa using h

/-- Rows against the reference: every row whose query is not exceeded by an
earlier query (every row, when QueryTimes is non-decreasing) equals the
reference row. -/
theorem rows_ref (inp : Input) (hwf : WellFormed inp) (hnx : 2 ≤ inp.nx) (hs : StrictInc inp) :
    ∃ y, mexFunction inp = .ok y ∧ y.length = inp.ny * inp.ncolumns ∧
      ∀ iy c, iy < inp.ny → c < inp.ncolumns →
        (∀ j, j < iy → qryTime inp j ≤ qryTime inp iy) → cell inp y iy c = refCell inp iy c := by
  obtain ⟨y, h1, h2, h3⟩ := result_rows inp hwf hnx hs
  refine ⟨y, h1, h2, ?_⟩
  intro iy c hiy hc hdom
  obtain ⟨ix, p1, p2, h4, h5, h6, h7, h8⟩ := h3 iy hiy
  have hlow : ∀ i, i < ix → srcTime inp (i + 1) < qryTime inp iy := by
    intro i hi
    obtain ⟨j, hj1, hj2⟩ := h5 i hi
    rcases Nat.eq_or_lt_of_le hj1 with hj | hj
    · rw [← hj]; exact hj2
    · exact lt_of_lt_of_le hj2 (hdom j hj)
  obtain ⟨r1, r2, r3⟩ := refBracket_spec inp (qryTime inp iy) hnx
  have hix : refBracket inp (qryTime inp iy) = ix :=
    bracket_unique inp _ _ _ r2 r3 h4 hlow h6 r1
  rw [h8 c hc]
  unfold refCell
  rw [hix, weights_eq_ref inp iy ix p1 p2 hwf.1 (by rw [hwf.2.2]; exact hiy) h4 h7]

theorem withQuery_wf (inp : Input) (hwf : WellFormed inp) (t : ℚ) :
    WellFormed (withQuery inp t) :=
  ⟨hwf.1, hwf.2.1, rfl⟩

theorem refCell_withQuery (inp : Input) (iy c : Nat) :
    refCell (withQuery inp (qryTime inp iy)) 0 c = refCell inp iy c := rfl

/-! ## Queries at a knot -/

theorem qryTime_withQuery (inp : Input) (t : ℚ) : qryTime (withQuery inp t) 0 = t := by
  simp [qryTime, withQuery]

/-- Interpolating the single query `SourceTimes[i]` gives `SourceValues[i][c]`. -/
theorem knot_value (inp : Input) (htx : inp.tx.length = inp.nx)
    (hx : inp.x.length = inp.nx * inp.ncolumns) (hnx : 2 ≤ inp.nx) (hs : StrictInc inp)
    (i : Nat) (hi : i < inp.nx) :
    ∃ y, mexFunction (withQuery inp (srcTime inp i)) = .ok y ∧ y.length = inp.ncolumns ∧
      ∀ c, c < inp.ncolumns → cell (withQuery inp (srcTime inp i)) y 0 c = srcVal inp i c := by
  have hwf : WellFormed (withQuery inp (srcTime inp i)) := ⟨htx, hx, rfl⟩
  obtain ⟨y, h1, h2, h3⟩ := result_rows (withQuery inp (srcTime inp i)) hwf hnx hs
  refine ⟨y, h1, by simpa [withQuery] using h2, ?_⟩
  intro c hc
  obtain ⟨ix, p1, p2, h4, h5, h6, h7, h8⟩ := h3 0 (by simp [withQuery])
  have hlow : ∀ k, k < ix → srcTime (withQuery inp (srcTime inp i)) (k + 1)
      < qryTime (withQuery inp (srcTime inp i)) 0 := by
    intro k hk
    obtain ⟨j, hj1, hj2⟩ := h5 k hk
    have hj : j = 0 := by omega
    rw [hj] at hj2
    exact hj2
  have hq := qryTime_withQuery inp (srcTime inp i)
  rw [h8 c hc]
  by_cases hlast : i + 2 ≤ inp.nx
  · have h9 := bracket_blend (withQuery inp (srcTime inp i)) htx hs 0 ix i p1 p2
      (srcVal inp ix c) (srcVal inp (ix + 1) c) (srcVal inp i c) (srcVal inp (i + 1) c)
      (by simp [withQuery]) h4 hlow h6 h7 hlast (by rw [hq]; exact le_refl _)
      (by rw [hq]; exact le_of_lt (strictInc_lt inp hs htx i (i + 1) (by omega) (by omega)))
      (fun h => by subst h; exact ⟨rfl, rfl⟩) (fun h => by subst h; rfl)
    rw [hq] at h9
    have h10 : srcTime (withQuery inp (srcTime inp i)) i = srcTime inp i := rfl
    rw [h10] at h9
    simp only [sub_self, zero_div, sub_zero, one_mul, zero_mul, add_zero] at h9
    exact h9
  · have hi1 : i = (inp.nx - 2) + 1 := by omega
    have hne := weights_ne_divByZero inp hs htx (inp.nx - 2) (by omega)
    have h9 := bracket_blend (withQuery inp (srcTime inp i)) htx hs 0 ix (inp.nx - 2) p1 p2
      (srcVal inp ix c) (srcVal inp (ix + 1) c) (srcVal inp (inp.nx - 2) c)
      (srcVal inp (inp.nx - 2 + 1) c)
      (by simp [withQuery]) h4 hlow h6 h7 (show inp.nx - 2 + 2 ≤ inp.nx by omega)
      (by rw [hq]; exact strictInc_le inp hs htx _ _ (by omega) hi)
      (by rw [hq, hi1]; exact le_refl _)
      (fun h => by rw [h]; exact ⟨rfl, rfl⟩) (fun h => by rw [h])
    rw [hq] at h9
    have h10 : ∀ k, srcTime (withQuery inp (srcTime inp i)) k = srcTime inp k := fun _ => rfl
    rw [h10, h10] at h9
    refine Eq.trans h9 ?_
    conv => lhs; rw [hi1]
    rw [div_self (sub_ne_zero.2 hne)]
    rw [← hi1]
    simp

/-! ## Clamping at the boundaries -/

/-- Left clamp: at a query index that no earlier query exceeds, the below-left
test `ty[iy] < tx[ix]` succeeds only at cursor `0`, and a query below
`SourceTimes[0]` gets the first sample. -/
theorem left_clamp (inp : Input) (hwf : WellFormed inp) (hnx : 2 ≤ inp.nx) (hs : StrictInc inp)
    (iy : Nat) (hiy : iy < inp.ny) (hdom : ∀ j, j < iy → qryTime inp j ≤ qryTime inp iy) :
    ∃ y, mexFunction inp = .ok y ∧ y.length = inp.ny * inp.ncolumns ∧
      ∃ ixb yb ix, scan inp iy = .ok (ixb, yb) ∧ advance inp iy ixb = .ok ix ∧
        (qryTime inp iy < srcTime inp ix → ix = 0) ∧
        (qryTime inp iy < srcTime inp 0 →
          ∀ c, c < inp.ncolumns → cell inp y iy c = srcVal inp 0 c) := by
  obtain ⟨y, h1, h2, h3⟩ := result_rows_cursor inp hwf hnx hs
  refine ⟨y, h1, h2, ?_⟩
  obtain ⟨ixb, yb, ix, p1, p2, h4, h5, h6, h7, _, h9, h10⟩ := h3 iy hiy
  have hlow : ∀ i, i < ix → srcTime inp (i + 1) < qryTime inp iy := by
    intro i hi
    obtain ⟨j, hj1, hj2⟩ := h7 i hi
    rcases Nat.eq_or_lt_of_le hj1 with hj | hj
    · rw [← hj]; exact hj2
    · exact lt_of_lt_of_le hj2 (hdom j hj)
  have hzero : ∀ k, k ≤ ix → qryTime inp iy < srcTime inp k → ix = 0 := by
    intro k hk hlt
    by_contra hne
    have h11 := hlow (ix - 1) (by omega)
    rw [show ix - 1 + 1 = ix by omega] at h11
    have h12 := strictInc_le inp hs hwf.1 k ix hk (by omega)
    exact absurd (lt_of_lt_of_le hlt h12) (not_lt.2 (le_of_lt h11))
  refine ⟨ixb, yb, ix, h4, h5, hzero ix (le_refl _), ?_⟩
  intro hlt c hc
  have hix := hzero 0 (Nat.zero_le _) hlt
  subst hix
  rw [h10 c hc]
  rcases weights_regime inp iy 0 p1 p2 hwf.1 (by rw [hwf.2.2]; exact hiy) h6 h9
    with ⟨_, g1, g2⟩ | ⟨g0, _⟩ | ⟨g0, _⟩
  · rw [g1, g2]; simp
  · exact absurd hlt (not_lt.2 g0)
  · exact absurd hlt (not_lt.2 g0)

/-- Right clamp, for queries in any order: the beyond-right test
`tx[ix+1] < ty[iy]` succeeds only at cursor `nx-2`, and a query above
`SourceTimes[nx-1]` gets the last sample. -/
theorem right_clamp (inp : Input) (hwf : WellFormed inp) (hnx : 2 ≤ inp.nx) (hs : StrictInc inp)
    (iy : Nat) (hiy : iy < inp.ny) :
    ∃ y, mexFunction inp = .ok y ∧ y.length = inp.ny * inp.ncolumns ∧
      ∃ ixb yb ix, scan inp iy = .ok (ixb, yb) ∧ advance inp iy ixb = .ok ix ∧
        (srcTime inp (ix + 1) < qryTime inp iy → ix + 2 = inp.nx) ∧
        (srcTime inp (inp.nx - 1) < qryTime inp iy →
          ∀ c, c < inp.ncolumns → cell inp y iy c = srcVal inp (inp.nx - 1) c) := by
  obtain ⟨y, h1, h2, h3⟩ := result_rows_cursor inp hwf hnx hs
  refine ⟨y, h1, h2, ?_⟩
  obtain ⟨ixb, yb, ix, p1, p2, h4, h5, h6, _, h8, h9, h10⟩ := h3 iy hiy
  have hlast : srcTime inp (ix + 1) < qryTime inp iy → ix + 2 = inp.nx := by
    intro hlt
    by_contra hne
    exact absurd hlt (not_lt.2 (h8 (by omega)))
  refine ⟨ixb, yb, ix, h4, h5, hlast, ?_⟩
  intro hlt c hc
  have h11 := strictInc_le inp hs hwf.1 (ix + 1) (inp.nx - 1) (by omega) (by omega)
  have h12 := lt_of_le_of_lt h11 hlt
  have hix := hlast h12
  have h13 := strictInc_lt inp hs hwf.1 ix (ix + 1) (by omega) (by omega)
  rw [h10 c hc]
  rcases weights_regime inp iy ix p1 p2 hwf.1 (by rw [hwf.2.2]; exact hiy) h6 h9
    with ⟨g0, _⟩ | ⟨_, _, g1, g2⟩ | ⟨_, g0, _⟩
  · exact absurd (lt_trans h13 h12) (not_lt.2 (le_of_lt g0))
  · rw [g1, g2, show inp.nx - 1 = ix + 1 by omega]; simp
  · exact absurd h12 (not_lt.2 g0)

/-! ## Convexity -/

/-- The weights of a successful regime chain are convex weights. -/
theorem weights_convex (inp : Input) (hs : StrictInc inp) (iy ix : Nat) (p1 p2 : ℚ)
    (htx : inp.tx.length = inp.nx) (hiy : iy < inp.ty.length) (hix : ix + 2 ≤ inp.nx)
    (h : weights inp iy ix = .ok (p1, p2)) :
    0 ≤ p1 ∧ p1 ≤ 1 ∧ 0 ≤ p2 ∧ p2 ≤ 1 ∧ p1 + p2 = 1 := by
  rcases weights_regime inp iy ix p1 p2 htx hiy hix h
    with ⟨_, g1, g2⟩ | ⟨_, _, g1, g2⟩ | ⟨g1, g2, _, g4, g5⟩
  · rw [g1, g2]; norm_num
  · rw [g1, g2]; norm_num
  · have hpos : 0 < srcTime inp (ix + 1) - srcTime inp ix :=
      sub_pos.2 (strictInc_lt inp hs htx ix (ix + 1) (by omega) (by omega))
    have h0 : 0 ≤ p2 := by
      rw [g4]; exact div_nonneg (sub_nonneg.2 g1) (le_of_lt hpos)
    have h1 : p2 ≤ 1 := by
      rw [g4, div_le_one hpos]; linarith
    rw [g5]
    refine ⟨by linarith, by linarith, h0, h1, by ring⟩

theorem convex_between (p1 p2 a b : ℚ) (h1 : 0 ≤ p1) (h2 : 0 ≤ p2) (h : p1 + p2 = 1) :
    min a b ≤ p1 * a + p2 * b ∧ p1 * a + p2 * b ≤ max a b := by
  have e1 : p1 = 1 - p2 := by linarith
  rcases le_total a b with hab | hab
  · rw [min_eq_left hab, max_eq_right hab, e1]
    constructor <;> nlinarith
  · rw [min_eq_right hab, max_eq_left hab, e1]
    constructor <;> nlinarith

/-! ## Column independence -/

theorem colLoop_error (inp : Input) (p1 p2 : ℚ) (ix iy : Nat) :
    ∀ (k c : Nat) (y : List ℚ) (e : Err), colLoop inp p1 p2 ix iy k c y = .error e →
      e = .outOfBounds := by
  intro k
  induction k with
  | zero => intro c y e h; cases h
  | succ k ih =>
    intro c y e h
    unfold colLoop at h
    split at h
    · rename_i e1 h1
      simp only [Except.error.injEq] at h
      rw [← h]; exact (rd_error_iff.1 h1).2
    · split at h
      · rename_i e1 h1
        simp only [Except.error.injEq] at h
        rw [← h]; exact (rd_error_iff.1 h1).2
      · split at h
        · rename_i e1 h1
          simp only [Except.error.injEq] at h
          rw [← h]; exact (wr_error_iff.1 h1).2
        · exact ih _ _ _ h

theorem advanceFuel_increments (inp : Input) (iy : Nat) :
    ∀ (fuel ix ix1 : Nat), advanceFuel inp iy fuel ix = .ok ix1 →
      ix1 = ix + increments inp iy fuel ix := by
  intro fuel
  induction fuel with
  | zero => intro ix ix1 h; cases h
  | succ n ih =>
    intro ix ix1 h
    unfold advanceFuel at h
    unfold increments
    cases hc : whileCond inp iy ix with
    | error e => rw [hc] at h; cases h
    | ok b =>
      rw [hc] at h
      cases b with
      | true =>
        have := ih (ix + 1) ix1 h
        simp only []
        omega
      | false =>
        simp only [Except.ok.injEq] at h
        simp only []
        omega

theorem colWrites_length (inp : Input) (iy : Nat) :
    ∀ (k c : Nat), (colWrites inp iy k c).length = k := by
  intro k
  induction k with
  | zero => intro c; rfl
  | succ k ih => intro c; simp [colWrites, ih]

theorem mexFunction_scan (inp : Input) (y : List ℚ) (h : mexFunction inp = .ok y) :
    ∃ ix, scan inp inp.ny = .ok (ix, y) := by
  unfold mexFunction at h
  split at h
  · cases h
  · rename_i ix y1 hs
    simp only [Except.ok.injEq] at h
    subst h
    exact ⟨ix, hs⟩

/-- The indices used at query index `k`, from a state of the scan: all in bounds. -/
theorem scan_indices (inp : Input) (hwf : WellFormed inp) (hnx : 2 ≤ inp.nx) (k ixb : Nat)
    (yb : List ℚ) (hk : k < inp.ny) (h : scan inp k = .ok (ixb, yb)) :
    ∃ ix, advance inp k ixb = .ok ix ∧ ixb ≤ ix ∧ ix + 1 < inp.tx.length ∧
      k < inp.ty.length ∧
      ∀ c, c < inp.ncolumns →
        c * inp.nx + ix + 1 < inp.x.length ∧ c * inp.ny + k < yb.length ∧
          c * inp.ny + k < inp.ny * inp.ncolumns := by
  have h1 := (scan_cursor_inv inp hwf hnx k ixb yb (by omega) h).1
  have h2 := scan_length inp k ixb yb (by omega) h
  obtain ⟨htx, hx, hty⟩ := hwf
  obtain ⟨ix, h3, h4, h5, _⟩ := advance_eval inp k ixb htx (by omega)
  have h6 := h5 h1
  refine ⟨ix, h3, h4, by omega, by omega, ?_⟩
  intro c hc
  have h7 := mul_add_lt hc (show ix + 1 < inp.nx by omega)
  have h8 := mul_add_lt hc hk
  refine ⟨by rw [hx]; omega, by rw [h2]; exact h8, h8⟩


/-! ## Degenerate `nx` -/

theorem weights_error (inp : Input) (iy ix : Nat) (e : Err)
    (h : weights inp iy ix = .error e) :
    e = .outOfBounds ∨ (e = .divByZero ∧ ix + 1 < inp.tx.length) := by
  unfold weights at h
  split at h
  · rename_i e1 h1
    simp only [Except.error.injEq] at h
    rw [← h]; exact Or.inl (rd_error_iff.1 h1).2
  · split at h
    · rename_i e1 h1
      simp only [Except.error.injEq] at h
      rw [← h]; exact Or.inl (rd_error_iff.1 h1).2
    · split at h
      · cases h
      · split at h
        · rename_i e1 h1
          simp only [Except.error.injEq] at h
          rw [← h]; exact Or.inl (rd_error_iff.1 h1).2
        · rename_i b hb
          split at h
          · cases h
          · split at h
            · simp only [Except.error.injEq] at h
              exact Or.inr ⟨h.symm, (rd_ok_iff.1 hb).1⟩
            · cases h

theorem degenerate_whileCond (inp : Input) (hnx : inp.nx < 2) (iy ix : Nat) :
    whileCond inp iy ix = .ok false := by
  unfold whileCond
  rw [if_neg (by omega)]

theorem degenerate_advance (inp : Input) (hnx : inp.nx < 2) (iy ix : Nat) :
    advance inp iy ix = .ok ix := by
  simp [advance, advanceFuel, degenerate_whileCond inp hnx]

/-- With `nx < 2` the column loop at cursor `0` reads outside `x`. -/
theorem degenerate_colLoop (inp : Input) (hnx : inp.nx < 2) (hny : 1 ≤ inp.ny)
    (hnc : 1 ≤ inp.ncolumns) (hx : inp.x.length = inp.nx * inp.ncolumns) (p1 p2 : ℚ)
    (y : List ℚ) :
    colLoop inp p1 p2 0 0 inp.ncolumns 0 y = .error .outOfBounds := by
  cases hz : colLoop inp p1 p2 0 0 inp.ncolumns 0 y with
  | error e => rw [colLoop_error _ _ _ _ _ _ _ _ _ hz]
  | ok z =>
    exfalso
    have g := ((colLoop_inv inp p1 p2 0 0 (by omega) _ _ _ _ hz).2.2
      (inp.ncolumns - 1) (Nat.zero_le _) (by omega)).1
    rw [hx] at g
    have h01 : inp.nx = 0 ∨ inp.nx = 1 := by omega
    rcases h01 with h0 | h1
    · rw [h0] at g; simp at g
    · rw [h1] at g; simp at g; omega

/-- With `nx < 2` the first pass through the loop body stops at an index. -/
theorem degenerate_body (inp : Input) (hnx : inp.nx < 2) (hny : 1 ≤ inp.ny)
    (hnc : 1 ≤ inp.ncolumns) (htx : inp.tx.length = inp.nx)
    (hx : inp.x.length = inp.nx * inp.ncolumns) (y : List ℚ) :
    body inp 0 0 y = .error .outOfBounds := by
  unfold body
  rw [degenerate_advance inp hnx]
  simp only []
  cases hw : weights inp 0 0 with
  | error e =>
    rcases weights_error inp 0 0 e hw with h | ⟨_, h⟩
    · simp [h]
    · omega
  | ok p =>
    obtain ⟨p1, p2⟩ := p
    simp only [degenerate_colLoop inp hnx hny hnc hx]

theorem scan_error_succ (inp : Input) (e : Err) (n : Nat) :
    ∀ (k : Nat), scan inp k = .error e → scan inp (k + n) = .error e := by
  induction n with
  | zero => intro k h; exact h
  | succ n ih =>
    intro k h
    rw [← Nat.add_assoc, scan_succ, ih k h]

theorem degenerate_mexFunction (inp : Input) (hnx : inp.nx < 2) (hny : 1 ≤ inp.ny)
    (hnc : 1 ≤ inp.ncolumns) (htx : inp.tx.length = inp.nx)
    (hx : inp.x.length = inp.nx * inp.ncolumns) :
    scan inp 1 = .error .outOfBounds ∧ mexFunction inp = .error .outOfBounds := by
  have h1 : scan inp 1 = .error .outOfBounds := by
    rw [scan_succ, scan_zero]
    exact degenerate_body inp hnx hny hnc htx hx _
  refine ⟨h1, ?_⟩
  have h2 := scan_error_succ inp _ (inp.ny - 1) 1 h1
  rw [show 1 + (inp.ny - 1) = inp.ny by omega] at h2
  simp [mexFunction, h2]


/-! ## Termination -/

theorem run_done (inp : Input) (iy ix : Nat) (y : List ℚ) (h : inp.ny ≤ iy) :
    run inp iy ix y = .ok y := by
  rw [run, dif_neg (by omega)]

/-- The state machine, started inside the `while` loop of query index `iy`,
runs the loop to its exit and then the rest of the body. -/
theorem run_advanceFuel (inp : Input) (iy : Nat) (y : List ℚ) (hiy : iy < inp.ny) :
    ∀ (fuel ix : Nat), 1 ≤ fuel → inp.nx ≤ ix + 1 + fuel →
      run inp iy ix y =
        match advanceFuel inp iy fuel ix with
        | .error e => .error e
        | .ok ix1 =>
          match weights inp iy ix1 with
          | .error e => .error e
          | .ok (p1, p2) =>
            match colLoop inp p1 p2 ix1 iy inp.ncolumns 0 y with
            | .error e => .error e
            | .ok y1 => run inp (iy + 1) ix1 y1 := by
  intro fuel
  induction fuel with
  | zero => intro ix h; omega
  | succ n ih =>
    intro ix _ h2
    rw [run, dif_pos hiy]
    unfold advanceFuel
    split
    · rename_i e hc
      simp only [hc]
    · rename_i hc
      have hlt := whileCond_true_lt inp iy ix hc
      simp only [hc]
      exact ih (ix + 1) (by omega) (by omega)
    · rename_i hc
      simp only [hc]

theorem run_body (inp : Input) (iy ix : Nat) (y : List ℚ) (hiy : iy < inp.ny) :
    run inp iy ix y =
      match body inp iy ix y with
      | .error e => .error e
      | .ok (ix1, y1) => run inp (iy + 1) ix1 y1 := by
  rw [run_advanceFuel inp iy y hiy (inp.nx + 1) ix (by omega) (by omega)]
  unfold body advance
  cases advanceFuel inp iy (inp.nx + 1) ix with
  | error e => rfl
  | ok ix1 =>
    simp only []
    cases weights inp iy ix1 with
    | error e => rfl
    | ok p =>
      obtain ⟨p1, p2⟩ := p
      simp only []
      cases colLoop inp p1 p2 ix1 iy inp.ncolumns 0 y with
      | error e => rfl
      | ok y1 => rfl

theorem run_outer (inp : Input) :
    ∀ (n iy ix : Nat) (y : List ℚ), iy + n = inp.ny →
      run inp iy ix y =
        match outer inp n iy ix y with
        | .error e => .error e
        | .ok (_, y1) => .ok y1 := by
  intro n
  induction n with
  | zero =>
    intro iy ix y h
    rw [run_done inp iy ix y (by omega)]
    rfl
  | succ n ih =>
    intro iy ix y h
    rw [run_body inp iy ix y (by omega)]
    simp only [outer]
    cases body inp iy ix y with
    | error e => rfl
    | ok s =>
      obtain ⟨ix1, y1⟩ := s
      simp only []
      exact ih (iy + 1) ix1 y1 (by omega)

/-- The well-founded state machine computes the function. -/
theorem run_eq_mexFunction (inp : Input) : run inp 0 0 (initY inp) = mexFunction inp := by
  rw [run_outer inp inp.ny 0 0 (initY inp) (by omega)]
  rfl

theorem body_ne_outOfFuel (inp : Input) (iy ix : Nat) (y : List ℚ) :
    body inp iy ix y ≠ .error .outOfFuel := by
  unfold body
  cases ha : advance inp iy ix with
  | error e =>
    simp only []
    intro h
    simp only [Except.error.injEq] at h
    rw [h] at ha
    exact advance_ne_outOfFuel inp iy ix ha
  | ok ix1 =>
    simp only []
    cases hw : weights inp iy ix1 with
    | error e =>
      simp only []
      intro h
      simp only [Except.error.injEq] at h
      rw [h] at hw
      rcases weights_error inp iy ix1 _ hw with h1 | ⟨h1, _⟩ <;> cases h1
    | ok p =>
      obtain ⟨p1, p2⟩ := p
      simp only []
      cases hc : colLoop inp p1 p2 ix1 iy inp.ncolumns 0 y with
      | error e =>
        simp only []
        intro h
        simp only [Except.error.injEq] at h
        rw [h] at hc
        cases colLoop_error _ _ _ _ _ _ _ _ _ hc
      | ok y1 => simp

theorem scan_ne_outOfFuel (inp : Input) : ∀ (k : Nat), scan inp k ≠ .error .outOfFuel := by
  intro k
  induction k with
  | zero => rw [scan_zero]; simp
  | succ k ih =>
    rw [scan_succ]
    cases hs : scan inp k with
    | error e =>
      simp only []
      rw [hs] at ih
      exact ih
    | ok s =>
      obtain ⟨ix, y⟩ := s
      exact body_ne_outOfFuel inp k ix y

/-- The function never runs out of fuel, on any input. -/
theorem mexFunction_ne_outOfFuel (inp : Input) : mexFunction inp ≠ .error .outOfFuel := by
  unfold mexFunction
  cases hs : scan inp inp.ny with
  | error e =>
    simp only []
    have := scan_ne_outOfFuel inp inp.ny
    rw [hs] at this
    intro h
    simp only [Except.error.injEq] at h
    rw [h] at this
    exact this rfl
  | ok s => simp

/-- The number of `ix++` of one `while` loop is at most the distance of the
entry cursor to `nx-2`. -/
theorem increments_le (inp : Input) (iy : Nat) :
    ∀ (fuel ix : Nat), increments inp iy fuel ix ≤ inp.nx - 2 - ix := by
  intro fuel
  induction fuel with
  | zero => intro ix; simp [increments]
  | succ n ih =>
    intro ix
    unfold increments
    split
    · rename_i hc
      have hlt := whileCond_true_lt inp iy ix hc
      have := ih (ix + 1)
      omega
    · omega


/-! ## The cursor and the running maximum of the queries -/

theorem runMax_ge (inp : Input) : ∀ (k j : Nat), j ≤ k → qryTime inp j ≤ runMax inp k := by
  intro k
  induction k with
  | zero =>
    intro j hj
    have : j = 0 := by omega
    subst this
    exact le_refl _
  | succ k ih =>
    intro j hj
    simp only [runMax]
    rcases Nat.eq_or_lt_of_le hj with h | h
    · rw [h]; exact le_max_right _ _
    · exact le_trans (ih j (by omega)) (le_max_left _ _)

theorem runMax_attained (inp : Input) : ∀ (k : Nat), ∃ j, j ≤ k ∧ runMax inp k = qryTime inp j := by
  intro k
  induction k with
  | zero => exact ⟨0, le_refl _, rfl⟩
  | succ k ih =>
    obtain ⟨j, hj1, hj2⟩ := ih
    simp only [runMax]
    rcases le_total (runMax inp k) (qryTime inp (k + 1)) with h | h
    · exact ⟨k + 1, le_refl _, max_eq_right h⟩
    · exact ⟨j, by omega, by rw [max_eq_left h, hj2]⟩

/-- With strictly increasing SourceTimes, the knot above the cursor of a state
of the scan is not below any query seen so far, unless the cursor is `nx-2`. -/
theorem scan_cursor_upper (inp : Input) (hwf : WellFormed inp) (hs : StrictInc inp) :
    ∀ (k ix : Nat) (y : List ℚ), k ≤ inp.ny → scan inp k = .ok (ix, y) → ix + 2 < inp.nx →
      ∀ j, j < k → qryTime inp j ≤ srcTime inp (ix + 1) := by
  intro k
  induction k with
  | zero => intro ix y _ _ _ j hj; omega
  | succ k ih =>
    intro ix y hk h hix j hj
    rw [scan_succ] at h
    cases hsc : scan inp k with
    | error e => rw [hsc] at h; cases h
    | ok s =>
      obtain ⟨ix0, y0⟩ := s
      rw [hsc] at h
      obtain ⟨_, _, h3, _⟩ := body_inv inp k ix0 ix y0 y (by omega) h
      obtain ⟨ix1, h4, h5, _, _, _, h8⟩ :=
        advance_eval inp k ix0 hwf.1 (by rw [hwf.2.2]; omega)
      rw [h3] at h4
      simp only [Except.ok.injEq] at h4
      subst h4
      rcases Nat.eq_or_lt_of_le (Nat.le_of_lt_succ hj) with hjk | hjk
      · rw [hjk]; exact h8 hix
      · exact le_trans (ih ix0 y0 (by omega) hsc (by omega) j hjk)
          (strictInc_le inp hs hwf.1 (ix0 + 1) (ix + 1) (by omega) (by omega))

/-- The cursor that serves query index `iy` is the reference bracket of the
running maximum of the queries `0..iy`; a query below the knot at the cursor
gets the sample at the cursor. -/
theorem cursor_runMax (inp : Input) (hwf : WellFormed inp) (hnx : 2 ≤ inp.nx)
    (hs : StrictInc inp) (iy : Nat) (hiy : iy < inp.ny) :
    ∃ y, mexFunction inp = .ok y ∧ y.length = inp.ny * inp.ncolumns ∧
      ∃ ixb yb ix p1 p2, scan inp iy = .ok (ixb, yb) ∧ advance inp iy ixb = .ok ix ∧
        weights inp iy ix = .ok (p1, p2) ∧
        (∀ c, c < inp.ncolumns →
          cell inp y iy c = p1 * srcVal inp ix c + p2 * srcVal inp (ix + 1) c) ∧
        ix = refBracket inp (runMax inp iy) ∧
        (qryTime inp iy < srcTime inp ix →
          ∀ c, c < inp.ncolumns → cell inp y iy c = srcVal inp ix c) := by
  obtain ⟨y, h1, h2, h3⟩ := result_rows_cursor inp hwf hnx hs
  refine ⟨y, h1, h2, ?_⟩
  obtain ⟨ixb, yb, ix, p1, p2, h4, h5, h6, h7, h8, h9, h10⟩ := h3 iy hiy
  refine ⟨ixb, yb, ix, p1, p2, h4, h5, h9, h10, ?_, ?_⟩
  · obtain ⟨ix1, g1, g2, _⟩ := advance_eval inp iy ixb hwf.1 (by rw [hwf.2.2]; omega)
    rw [h5] at g1
    simp only [Except.ok.injEq] at g1
    subst g1
    obtain ⟨r1, r2, r3⟩ := refBracket_spec inp (runMax inp iy) hnx
    refine bracket_unique inp (runMax inp iy) ix _ ?_ ?_ r1 r2 r3 h6
    · intro i hi
      obtain ⟨j, hj1, hj2⟩ := h7 i hi
      exact lt_of_lt_of_le hj2 (runMax_ge inp iy j hj1)
    · intro hix
      obtain ⟨j, hj1, hj2⟩ := runMax_attained inp iy
      rw [hj2]
      rcases Nat.eq_or_lt_of_le hj1 with hj | hj
      · rw [hj]; exact h8 hix
      · exact le_trans (scan_cursor_upper inp hwf hs iy ixb yb (by omega) h4 (by omega) j hj)
          (strictInc_le inp hs hwf.1 (ixb + 1) (ix + 1) (by omega) (by omega))
  · intro hlt c hc
    rw [h10 c hc]
    rcases weights_regime inp iy ix p1 p2 hwf.1 (by rw [hwf.2.2]; exact hiy) h6 h9
      with ⟨_, g1, g2⟩ | ⟨g0, _⟩ | ⟨g0, _⟩
    · rw [g1, g2]; simp
    · exact absurd hlt (not_lt.2 g0)
    · exact absurd hlt (not_lt.2 g0)


/-! ## Monotone columns -/

/-- In one bracket the weight `p2` is a non-decreasing function of the query,
and `p1 = 1 - p2`. -/
theorem weights_mono (inp : Input) (hs : StrictInc inp) (htx : inp.tx.length = inp.nx)
    (iy iy1 ix : Nat) (p1 p2 q1 q2 : ℚ) (hiy : iy < inp.ty.length)
    (hiy1 : iy1 < inp.ty.length) (hix : ix + 2 ≤ inp.nx)
    (hw : weights inp iy ix = .ok (p1, p2)) (hw1 : weights inp iy1 ix = .ok (q1, q2))
    (hle : qryTime inp iy ≤ qryTime inp iy1) :
    p2 ≤ q2 ∧ p1 = 1 - p2 ∧ q1 = 1 - q2 ∧ 0 ≤ p2 ∧ p2 ≤ 1 ∧ 0 ≤ q2 ∧ q2 ≤ 1 := by
  obtain ⟨a1, a2, a3, a4, a5⟩ := weights_convex inp hs iy ix p1 p2 htx hiy hix hw
  obtain ⟨b1, b2, b3, b4, b5⟩ := weights_convex inp hs iy1 ix q1 q2 htx hiy1 hix hw1
  refine ⟨?_, by linarith, by linarith, a3, a4, b3, b4⟩
  have hpos : 0 < srcTime inp (ix + 1) - srcTime inp ix :=
    sub_pos.2 (strictInc_lt inp hs htx ix (ix + 1) (by omega) (by omega))
  rcases weights_regime inp iy ix p1 p2 htx hiy hix hw
    with ⟨_, _, g2⟩ | ⟨g0, g1, _, _⟩ | ⟨g0, g1, _, g3, _⟩
  · rw [g2]; exact b3
  · rcases weights_regime inp iy1 ix q1 q2 htx hiy1 hix hw1
      with ⟨k0, _⟩ | ⟨_, _, _, k2⟩ | ⟨_, k1, _⟩
    · linarith
    · rw [k2]; exact a4
    · linarith
  · rcases weights_regime inp iy1 ix q1 q2 htx hiy1 hix hw1
      with ⟨k0, _⟩ | ⟨_, _, _, k2⟩ | ⟨_, _, _, k3, _⟩
    · linarith
    · rw [k2]; exact a4
    · rw [g3, k3]
      exact div_le_div_of_nonneg_right (by linarith) (le_of_lt hpos)

theorem srcVal_mono (inp : Input) (c : Nat)
    (h : ∀ i, i + 1 < inp.nx → srcVal inp i c ≤ srcVal inp (i + 1) c) :
    ∀ (j i : Nat), i ≤ j → j < inp.nx → srcVal inp i c ≤ srcVal inp j c := by
  intro j
  induction j with
  | zero =>
    intro i hi _
    have : i = 0 := by omega
    rw [this]
  | succ j ih =>
    intro i hi hj
    rcases Nat.eq_or_lt_of_le hi with h1 | h1
    · rw [h1]
    · exact le_trans (ih i (by omega) (by omega)) (h j hj)

theorem srcVal_anti (inp : Input) (c : Nat)
    (h : ∀ i, i + 1 < inp.nx → srcVal inp (i + 1) c ≤ srcVal inp i c) :
    ∀ (j i : Nat), i ≤ j → j < inp.nx → srcVal inp j c ≤ srcVal inp i c := by
  intro j
  induction j with
  | zero =>
    intro i hi _
    have : i = 0 := by omega
    rw [this]
  | succ j ih =>
    intro i hi hj
    rcases Nat.eq_or_lt_of_le hi with h1 | h1
    · rw [h1]
    · exact le_trans (h j hj) (ih i (by omega) (by omega))

/-- Two rows of a non-decreasing query sequence: the later row is served at a
cursor that is not smaller, and in the same bracket with a weight `p2` that is
not smaller. -/
theorem rows_ordered (inp : Input) (hwf : WellFormed inp) (hnx : 2 ≤ inp.nx)
    (hs : StrictInc inp) (hq : NonDec inp) :
    ∃ y, mexFunction inp = .ok y ∧ y.length = inp.ny * inp.ncolumns ∧
      ∀ iy iy1, iy ≤ iy1 → iy1 < inp.ny → ∃ ix ix1 p2 q2, ix ≤ ix1 ∧ ix1 + 2 ≤ inp.nx ∧
        0 ≤ p2 ∧ p2 ≤ 1 ∧ 0 ≤ q2 ∧ q2 ≤ 1 ∧ (ix = ix1 → p2 ≤ q2) ∧
        ∀ c, c < inp.ncolumns →
          cell inp y iy c = (1 - p2) * srcVal inp ix c + p2 * srcVal inp (ix + 1) c ∧
          cell inp y iy1 c = (1 - q2) * srcVal inp ix1 c + q2 * srcVal inp (ix1 + 1) c := by
  obtain ⟨y, h1, h2, h3⟩ := result_rows inp hwf hnx hs
  refine ⟨y, h1, h2, ?_⟩
  intro iy iy1 hle hiy1
  have hiy : iy < inp.ny := by omega
  obtain ⟨ix, p1, p2, a1, a2, a3, a4, a5⟩ := h3 iy hiy
  obtain ⟨ix1, q1, q2, b1, b2, b3, b4, b5⟩ := h3 iy1 hiy1
  have hqle := nonDec_le inp hq hwf.2.2 iy iy1 hle hiy1
  have alow := passed_below inp hq hwf.2.2 iy ix hiy a2
  have hcur : ix ≤ ix1 := by
    by_contra hlt
    have g1 := alow ix1 (by omega)
    have g2 := b3 (by omega)
    linarith
  obtain ⟨c1, c2, c3, c4, c5⟩ :=
    weights_convex inp hs iy ix p1 p2 hwf.1 (by rw [hwf.2.2]; exact hiy) a1 a4
  obtain ⟨d1, d2, d3, d4, d5⟩ :=
    weights_convex inp hs iy1 ix1 q1 q2 hwf.1 (by rw [hwf.2.2]; exact hiy1) b1 b4
  refine ⟨ix, ix1, p2, q2, hcur, b1, c3, c4, d3, d4, ?_, ?_⟩
  · intro heq
    subst heq
    exact (weights_mono inp hs hwf.1 iy iy1 ix p1 p2 q1 q2 (by rw [hwf.2.2]; exact hiy)
      (by rw [hwf.2.2]; exact hiy1) a1 a4 b4 hqle).1
  · intro c hc
    rw [a5 c hc, b5 c hc, show p1 = 1 - p2 by linarith, show q1 = 1 - q2 by linarith]
    exact ⟨rfl, rfl⟩

/-- Order of two blends with ordered cursors and weights, over a
non-decreasing sequence of samples. -/
theorem blend_le (a b a1 b1 p2 q2 : ℚ) (hp1 : p2 ≤ 1) (hq0 : 0 ≤ q2)
    (hab : a ≤ b) (hab1 : a1 ≤ b1)
    (h : (a = a1 ∧ b = b1 ∧ p2 ≤ q2) ∨ b ≤ a1) :
    (1 - p2) * a + p2 * b ≤ (1 - q2) * a1 + q2 * b1 := by
  rcases h with ⟨h1, h2, h3⟩ | h
  · subst h1 h2
    nlinarith
  · have e1 : (1 - p2) * a + p2 * b ≤ b := by nlinarith
    have e2 : a1 ≤ (1 - q2) * a1 + q2 * b1 := by nlinarith
    linarith

/-- A non-decreasing (non-increasing) column of SourceValues gives a
non-decreasing (non-increasing) column of the result, for non-decreasing
queries. -/
theorem column_monotone (inp : Input) (hwf : WellFormed inp) (hnx : 2 ≤ inp.nx)
    (hs : StrictInc inp) (hq : NonDec inp) (c : Nat) (hc : c < inp.ncolumns) :
    ∃ y, mexFunction inp = .ok y ∧ y.length = inp.ny * inp.ncolumns ∧
      ((∀ i, i + 1 < inp.nx → srcVal inp i c ≤ srcVal inp (i + 1) c) →
        ∀ iy iy1, iy ≤ iy1 → iy1 < inp.ny → cell inp y iy c ≤ cell inp y iy1 c) ∧
      ((∀ i, i + 1 < inp.nx → srcVal inp (i + 1) c ≤ srcVal inp i c) →
        ∀ iy iy1, iy ≤ iy1 → iy1 < inp.ny → cell inp y iy1 c ≤ cell inp y iy c) := by
  obtain ⟨y, h1, h2, h3⟩ := rows_ordered inp hwf hnx hs hq
  refine ⟨y, h1, h2, ?_, ?_⟩
  · intro hmono iy iy1 hle hiy1
    obtain ⟨ix, ix1, p2, q2, g1, g2, g3, g4, g5, g6, g7, g8⟩ := h3 iy iy1 hle hiy1
    obtain ⟨e1, e2⟩ := g8 c hc
    rw [e1, e2]
    apply blend_le _ _ _ _ _ _ g4 g5 (hmono ix (by omega)) (hmono ix1 (by omega))
    rcases Nat.eq_or_lt_of_le g1 with heq | hlt
    · left; subst heq; exact ⟨rfl, rfl, g7 rfl⟩
    · right; exact srcVal_mono inp c hmono ix1 (ix + 1) (by omega) (by omega)
  · intro hanti iy iy1 hle hiy1
    obtain ⟨ix, ix1, p2, q2, g1, g2, g3, g4, g5, g6, g7, g8⟩ := h3 iy iy1 hle hiy1
    obtain ⟨e1, e2⟩ := g8 c hc
    rw [e1, e2]
    have k := blend_le (-srcVal inp ix c) (-srcVal inp (ix + 1) c) (-srcVal inp ix1 c)
      (-srcVal inp (ix1 + 1) c) p2 q2 g4 g5
      (neg_le_neg (hanti ix (by omega))) (neg_le_neg (hanti ix1 (by omega)))
      (by
        rcases Nat.eq_or_lt_of_le g1 with heq | hlt
        · left; subst heq; exact ⟨rfl, rfl, g7 rfl⟩
        · right; exact neg_le_neg (srcVal_anti inp c hanti ix1 (ix + 1) (by omega) (by omega)))
    linarith


/-! ## Resampling onto the source grid -/

theorem linComb_length (a b : ℚ) (u v : List ℚ) (h : u.length = v.length) :
    (linComb a b u v).length = u.length := by
  simp [linComb, h]

theorem linComb_getD (a b : ℚ) (u v : List ℚ) (h : u.length = v.length) (i : Nat) :
    (linComb a b u v).getD i 0 = a * u.getD i 0 + b * v.getD i 0 := by
  simp only [linComb, List.getD_eq_getElem?_getD, List.getElem?_zipWith]
  by_cases hi : i < u.length
  · rw [List.getElem?_eq_getElem hi, List.getElem?_eq_getElem (show i < v.length by omega)]
    simp
  · rw [List.getElem?_eq_none (by omega), List.getElem?_eq_none (show v.length ≤ i by omega)]
    simp

theorem linComb_of_linOf (a b : ℚ) (y y1 yl : List ℚ) (h : LinOf a b y y1 yl) :
    yl = linComb a b y y1 := by
  obtain ⟨h1, h2, h3⟩ := h
  have hl := linComb_length a b y y1 h1.symm
  apply List.ext_getElem?
  intro idx
  by_cases hi : idx < y.length
  · have e1 := h3 idx
    rw [← linComb_getD a b y y1 h1.symm idx] at e1
    simp only [List.getD_eq_getElem?_getD] at e1
    rw [List.getElem?_eq_getElem (show idx < yl.length by omega),
      List.getElem?_eq_getElem (show idx < (linComb a b y y1).length by omega)] at e1 ⊢
    simp only [Option.getD_some] at e1
    rw [e1]
  · rw [List.getElem?_eq_none (by omega), List.getElem?_eq_none (by omega)]

theorem advanceFuel_withValues (inp : Input) (xs : List ℚ) (iy : Nat) :
    ∀ (fuel ix : Nat),
      advanceFuel (withValues inp xs) iy fuel ix = advanceFuel inp iy fuel ix := by
  intro fuel
  induction fuel with
  | zero => intro ix; rfl
  | succ n ih =>
    intro ix
    have hw : whileCond (withValues inp xs) iy ix = whileCond inp iy ix := rfl
    simp only [advanceFuel, hw, ih]

/-- The cursor and the weights depend only on SourceTimes and QueryTimes. -/
theorem advance_withValues (inp : Input) (xs : List ℚ) (iy ix : Nat) :
    advance (withValues inp xs) iy ix = advance inp iy ix :=
  advanceFuel_withValues inp xs iy _ ix

theorem weights_withValues (inp : Input) (xs : List ℚ) (iy ix : Nat) :
    weights (withValues inp xs) iy ix = weights inp iy ix := rfl

/-- The column loop returns exactly when all its indices are in bounds, and
otherwise stops with `outOfBounds`. -/
theorem colLoop_cases (inp : Input) (p1 p2 : ℚ) (ix iy : Nat) (hiy : iy < inp.ny)
    (y : List ℚ) :
    ((∀ c1, c1 < inp.ncolumns →
        c1 * inp.nx + ix + 1 < inp.x.length ∧ c1 * inp.ny + iy < y.length) ∧
      ∃ y1, colLoop inp p1 p2 ix iy inp.ncolumns 0 y = .ok y1) ∨
    ((¬ ∀ c1, c1 < inp.ncolumns →
        c1 * inp.nx + ix + 1 < inp.x.length ∧ c1 * inp.ny + iy < y.length) ∧
      colLoop inp p1 p2 ix iy inp.ncolumns 0 y = .error .outOfBounds) := by
  by_cases hB : ∀ c1, c1 < inp.ncolumns →
      c1 * inp.nx + ix + 1 < inp.x.length ∧ c1 * inp.ny + iy < y.length
  · left
    exact ⟨hB, colLoop_ok inp p1 p2 ix iy inp.ncolumns 0 y
      (fun c1 _ hc1 => hB c1 (by omega))⟩
  · right
    refine ⟨hB, ?_⟩
    cases hz : colLoop inp p1 p2 ix iy inp.ncolumns 0 y with
    | error e => rw [colLoop_error _ _ _ _ _ _ _ _ _ hz]
    | ok z =>
      exfalso
      apply hB
      intro c1 hc1
      obtain ⟨g1, g2, _⟩ := (colLoop_inv inp p1 p2 ix iy hiy _ _ _ _ hz).2.2 c1
        (Nat.zero_le _) (by omega)
      exact ⟨g1, g2⟩

/-- One pass through the loop body on `X`, on `X1` and on `a*X + b*X1`: same
error, or same cursor and the third buffer is the combination of the other
two. -/
theorem body_lin (inp : Input) (a b : ℚ) (X X1 : List ℚ) (hX : X.length = X1.length)
    (iy ix : Nat) (y y1 yl : List ℚ) (hiy : iy < inp.ny) (hrel : LinOf a b y y1 yl) :
    Agree3 (fun s s1 sl => s1.1 = s.1 ∧ sl.1 = s.1 ∧ LinOf a b s.2 s1.2 sl.2)
      (body (withValues inp X) iy ix y) (body (withValues inp X1) iy ix y1)
      (body (withValues inp (linComb a b X X1)) iy ix yl) := by
  unfold body
  rw [advance_withValues, advance_withValues, advance_withValues]
  cases ha : advance inp iy ix with
  | error e => simp [Agree3]
  | ok ix1 =>
    simp only [weights_withValues]
    cases hw : weights inp iy ix1 with
    | error e => simp [Agree3]
    | ok p =>
      obtain ⟨p1, p2⟩ := p
      simp only []
      obtain ⟨hy1, hyl, hcell⟩ := hrel
      have hL := linComb_length a b X X1 hX
      have hnc : ∀ xs, (withValues inp xs).ncolumns = inp.ncolumns := fun _ => rfl
      have hnx : ∀ xs, (withValues inp xs).nx = inp.nx := fun _ => rfl
      have hny : ∀ xs, (withValues inp xs).ny = inp.ny := fun _ => rfl
      have hxx : ∀ xs, (withValues inp xs).x = xs := fun _ => rfl
      rcases colLoop_cases (withValues inp X) p1 p2 ix1 iy hiy y with ⟨hB, z, hz⟩ | ⟨hB, hz⟩
      · simp only [hnc, hnx, hny, hxx] at hB
        obtain ⟨z1, hz1⟩ := colLoop_ok (withValues inp X1) p1 p2 ix1 iy inp.ncolumns 0 y1
          (fun c1 _ hc1 => by
            have := hB c1 (by omega)
            simp only [hnx, hny, hxx]
            omega)
        obtain ⟨zl, hzl⟩ := colLoop_ok (withValues inp (linComb a b X X1)) p1 p2 ix1 iy
          inp.ncolumns 0 yl
          (fun c1 _ hc1 => by
            have := hB c1 (by omega)
            simp only [hnx, hny, hxx]
            omega)
        have hz0 : colLoop (withValues inp X) p1 p2 ix1 iy inp.ncolumns 0 y = .ok z := hz
        simp only [hnc]
        rw [hz0, hz1, hzl]
        simp only [Agree3, true_and]
        obtain ⟨g1, g2, g3⟩ := colLoop_inv (withValues inp X) p1 p2 ix1 iy hiy _ _ _ _ hz
        obtain ⟨k1, k2, k3⟩ := colLoop_inv (withValues inp X1) p1 p2 ix1 iy hiy _ _ _ _ hz1
        obtain ⟨l1, l2, l3⟩ :=
          colLoop_inv (withValues inp (linComb a b X X1)) p1 p2 ix1 iy hiy _ _ _ _ hzl
        refine ⟨by rw [k1, g1, hy1], by rw [l1, g1, hyl], ?_⟩
        intro idx
        by_cases hform : ∃ c1, c1 < inp.ncolumns ∧ idx = c1 * inp.ny + iy
        · obtain ⟨c1, hc1, hidx⟩ := hform
          have hc0 : c1 < 0 + inp.ncolumns := by omega
          have e1 := (g3 c1 (Nat.zero_le _) hc0).2.2
          have e2 := (k3 c1 (Nat.zero_le _) hc0).2.2
          have e3 := (l3 c1 (Nat.zero_le _) hc0).2.2
          simp only [hny] at e1 e2 e3
          rw [hidx, e1, e2, e3]
          simp only [srcVal, hnx, hxx, linComb_getD a b X X1 hX]
          ring
        · have hne : ∀ xs, ∀ c1, 0 ≤ c1 → c1 < 0 + (withValues inp xs).ncolumns →
              idx ≠ c1 * (withValues inp xs).ny + iy := by
            intro xs c1 _ hc1 h9
            exact hform ⟨c1, by simpa [hnc] using hc1, h9⟩
          rw [g2 idx (hne X), k2 idx (hne X1), l2 idx (hne _)]
          exact hcell idx
      · simp only [hnc, hnx, hny, hxx] at hB
        have hz1 : colLoop (withValues inp X1) p1 p2 ix1 iy inp.ncolumns 0 y1
            = .error .outOfBounds := by
          rcases colLoop_cases (withValues inp X1) p1 p2 ix1 iy hiy y1 with ⟨hB1, _⟩ | ⟨_, h⟩
          · exfalso
            apply hB
            intro c1 hc1
            have := hB1 c1 hc1
            simp only [hnx, hny, hxx] at this
            omega
          · exact h
        have hzl : colLoop (withValues inp (linComb a b X X1)) p1 p2 ix1 iy inp.ncolumns 0 yl
            = .error .outOfBounds := by
          rcases colLoop_cases (withValues inp (linComb a b X X1)) p1 p2 ix1 iy hiy yl
            with ⟨hB1, _⟩ | ⟨_, h⟩
          · exfalso
            apply hB
            intro c1 hc1
            have := hB1 c1 hc1
            simp only [hnx, hny, hxx] at this
            omega
          · exact h
        have hz0 : colLoop (withValues inp X) p1 p2 ix1 iy inp.ncolumns 0 y
            = .error .outOfBounds := hz
        simp only [hnc]
        rw [hz0, hz1, hzl]
        simp [Agree3]

theorem outer_lin (inp : Input) (a b : ℚ) (X X1 : List ℚ) (hX : X.length = X1.length) :
    ∀ (k iy ix : Nat) (y y1 yl : List ℚ), iy + k ≤ inp.ny → LinOf a b y y1 yl →
      Agree3 (fun s s1 sl => s1.1 = s.1 ∧ sl.1 = s.1 ∧ LinOf a b s.2 s1.2 sl.2)
        (outer (withValues inp X) k iy ix y) (outer (withValues inp X1) k iy ix y1)
        (outer (withValues inp (linComb a b X X1)) k iy ix yl) := by
  intro k
  induction k with
  | zero =>
    intro iy ix y y1 yl _ hrel
    simp [outer, Agree3, hrel]
  | succ k ih =>
    intro iy ix y y1 yl hk hrel
    have hb := body_lin inp a b X X1 hX iy ix y y1 yl (by omega) hrel
    simp only [outer]
    cases h1 : body (withValues inp X) iy ix y with
    | error e =>
      cases h2 : body (withValues inp X1) iy ix y1 with
      | error e1 =>
        cases h3 : body (withValues inp (linComb a b X X1)) iy ix yl with
        | error e2 =>
          rw [h1, h2, h3] at hb
          simpa [Agree3] using hb
        | ok s2 => rw [h1, h2, h3] at hb; exact hb.elim
      | ok s1 =>
        cases h3 : body (withValues inp (linComb a b X X1)) iy ix yl with
        | error e2 => rw [h1, h2, h3] at hb; exact hb.elim
        | ok s2 => rw [h1, h2, h3] at hb; exact hb.elim
    | ok s =>
      cases h2 : body (withValues inp X1) iy ix y1 with
      | error e1 =>
        cases h3 : body (withValues inp (linComb a b X X1)) iy ix yl with
        | error e2 => rw [h1, h2, h3] at hb; exact hb.elim
        | ok s2 => rw [h1, h2, h3] at hb; exact hb.elim
      | ok s1 =>
        cases h3 : body (withValues inp (linComb a b X X1)) iy ix yl with
        | error e2 => rw [h1, h2, h3] at hb; exact hb.elim
        | ok s2 =>
          rw [h1, h2, h3] at hb
          obtain ⟨u, z⟩ := s
          obtain ⟨u1, z1⟩ := s1
          obtain ⟨u2, z2⟩ := s2
          simp only [Agree3] at hb
          obtain ⟨e1, e2, hz⟩ := hb
          subst e1 e2
          exact ih (iy + 1) _ z z1 z2 (by omega) hz

/-- Interpolating `a*X + b*X1` gives the combination of the two results, and
the same error when the runs stop. -/
theorem mexFunction_lin (inp : Input) (a b : ℚ) (X X1 : List ℚ) (hX : X.length = X1.length) :
    mexFunction (withValues inp (linComb a b X X1))
      = combine a b (mexFunction (withValues inp X)) (mexFunction (withValues inp X1)) := by
  have hinit : LinOf a b (initY (withValues inp X)) (initY (withValues inp X1))
      (initY (withValues inp (linComb a b X X1))) := by
    refine ⟨rfl, rfl, ?_⟩
    intro idx
    have h0 : ∀ xs, (initY (withValues inp xs)).getD idx 0 = 0 := by
      intro xs
      simp only [initY, List.getD_eq_getElem?_getD, List.getElem?_replicate]
      split <;> rfl
    rw [h0, h0, h0]
    ring
  have h := outer_lin inp a b X X1 hX inp.ny 0 0 _ _ _ (by omega) hinit
  have hny : ∀ xs, (withValues inp xs).ny = inp.ny := fun _ => rfl
  unfold mexFunction scan
  rw [hny, hny, hny]
  cases h1 : outer (withValues inp X) inp.ny 0 0 (initY (withValues inp X)) with
  | error e =>
    cases h2 : outer (withValues inp X1) inp.ny 0 0 (initY (withValues inp X1)) with
    | error e1 =>
      cases h3 : outer (withValues inp (linComb a b X X1)) inp.ny 0 0
          (initY (withValues inp (linComb a b X X1))) with
      | error e2 =>
        rw [h1, h2, h3] at h
        simp only [Agree3] at h
        simp [combine, h.2]
      | ok s2 => rw [h1, h2, h3] at h; exact h.elim
    | ok s1 =>
      cases h3 : outer (withValues inp (linComb a b X X1)) inp.ny 0 0
          (initY (withValues inp (linComb a b X X1))) with
      | error e2 => rw [h1, h2, h3] at h; exact h.elim
      | ok s2 => rw [h1, h2, h3] at h; exact h.elim
  | ok s =>
    cases h2 : outer (withValues inp X1) inp.ny 0 0 (initY (withValues inp X1)) with
    | error e1 =>
      cases h3 : outer (withValues inp (linComb a b X X1)) inp.ny 0 0
          (initY (withValues inp (linComb a b X X1))) with
      | error e2 => rw [h1, h2, h3] at h; exact h.elim
      | ok s2 => rw [h1, h2, h3] at h; exact h.elim
    | ok s1 =>
      cases h3 : outer (withValues inp (linComb a b X X1)) inp.ny 0 0
          (initY (withValues inp (linComb a b X X1))) with
      | error e2 => rw [h1, h2, h3] at h; exact h.elim
      | ok s2 =>
        rw [h1, h2, h3] at h
        obtain ⟨u, z⟩ := s
        obtain ⟨u1, z1⟩ := s1
        obtain ⟨u2, z2⟩ := s2
        simp only [Agree3] at h
        simp only [combine, Except.ok.injEq]
        exact linComb_of_linOf a b z z1 z2 h.2.2

/-- The weights of a successful regime chain sum to one. -/
theorem weights_sum (inp : Input) (iy ix : Nat) (p1 p2 : ℚ) (htx : inp.tx.length = inp.nx)
    (hiy : iy < inp.ty.length) (hix : ix + 2 ≤ inp.nx) (h : weights inp iy ix = .ok (p1, p2)) :
    p1 + p2 = 1 := by
  rcases weights_regime inp iy ix p1 p2 htx hiy hix h
    with ⟨_, g1, g2⟩ | ⟨_, _, g1, g2⟩ | ⟨_, _, _, _, g5⟩
  · rw [g1, g2]; norm_num
  · rw [g1, g2]; norm_num
  · rw [g5]; ring

/-- A column of SourceValues that is constant `k` gives a column of the result
that is constant `k`. -/
theorem constant_column (inp : Input) (hwf : WellFormed inp) (hnx : 2 ≤ inp.nx) (y : List ℚ)
    (c : Nat) (k : ℚ) (h : mexFunction inp = .ok y) (hc : c < inp.ncolumns)
    (hk : ∀ i, i < inp.nx → srcVal inp i c = k) :
    ∀ iy, iy < inp.ny → cell inp y iy c = k := by
  intro iy hiy
  obtain ⟨ixf, hs⟩ := mexFunction_scan inp y h
  obtain ⟨ixb, yb, ixj, p1, p2, h1, h2, h3, h4⟩ := scan_row inp inp.ny iy ixf y (le_refl _) hiy hs
  have h5 := (scan_cursor_inv inp hwf hnx iy ixb yb (by omega) h1).1
  obtain ⟨ix1, h6, _, h7, _⟩ := advance_eval inp iy ixb hwf.1 (by rw [hwf.2.2]; omega)
  rw [h2] at h6
  simp only [Except.ok.injEq] at h6
  subst h6
  have h8 := weights_sum inp iy ixj p1 p2 hwf.1 (by rw [hwf.2.2]; exact hiy) (h7 h5) h3
  have h9 := h7 h5
  rw [h4 c hc, hk ixj (by omega), hk (ixj + 1) (by omega), ← add_mul, h8, one_mul]


/-! ## The scan over an arithmetic -/

/-- With no two adjacent SourceTimes equal the exact run never divides by
zero: the scan of any prefix of the queries returns a state. -/
theorem scan_ok_distinct (inp : Input) (hwf : WellFormed inp) (hnx : 2 ≤ inp.nx)
    (hd : DistinctKnots inp) :
    ∀ (k : Nat), k ≤ inp.ny → ∃ ix y, scan inp k = .ok (ix, y) := by
  intro k
  induction k with
  | zero => intro _; exact ⟨0, initY inp, rfl⟩
  | succ k ih =>
    intro hk
    obtain ⟨ix, y, h⟩ := ih (by omega)
    have h1 := (scan_cursor_inv inp hwf hnx k ix y (by omega) h).1
    have h2 := scan_length inp k ix y (by omega) h
    obtain ⟨ix1, _, _, h3, h4⟩ := body_eval inp hwf k ix y (by omega) h1 h2
    rcases h4 with ⟨_, h5, _⟩ | ⟨p1, p2, y1, _, h5⟩
    · exact absurd h5 (hd ix1 (by omega))
    · exact ⟨ix1, y1, by rw [scan_succ, h]; exact h5⟩

theorem mexFunction_ok_distinct (inp : Input) (hwf : WellFormed inp) (hnx : 2 ≤ inp.nx)
    (hd : DistinctKnots inp) :
    ∃ y, mexFunction inp = .ok y ∧ y.length = inp.ny * inp.ncolumns := by
  obtain ⟨ix, y, h⟩ := scan_ok_distinct inp hwf hnx hd inp.ny (le_refl _)
  exact ⟨y, by simp [mexFunction, h], scan_length inp _ ix y (le_refl _) h⟩

/-- Linearity and constant columns in exact arithmetic, for SourceTimes with
no two adjacent knots equal: the three runs return, the result for
`a*X + b*X1` is the combination of the other two results, and a constant
column of `X` gives a constant column of the result. -/
theorem linear_distinct (inp : Input) (a b : ℚ) (X X1 : List ℚ) (hnx : 2 ≤ inp.nx)
    (htx : inp.tx.length = inp.nx) (hty : inp.ty.length = inp.ny)
    (hX : X.length = inp.nx * inp.ncolumns) (hX1 : X1.length = inp.nx * inp.ncolumns)
    (hd : DistinctKnots inp) :
    ∃ y y1 yl, mexFunction (withValues inp X) = .ok y ∧
      mexFunction (withValues inp X1) = .ok y1 ∧
      mexFunction (withValues inp (linComb a b X X1)) = .ok yl ∧
      y.length = inp.ny * inp.ncolumns ∧ y1.length = inp.ny * inp.ncolumns ∧
      yl = linComb a b y y1 ∧
      (∀ iy c, cell inp yl iy c = a * cell inp y iy c + b * cell inp y1 iy c) ∧
      (∀ c k, c < inp.ncolumns → (∀ i, i < inp.nx → srcVal (withValues inp X) i c = k) →
        ∀ iy, iy < inp.ny → cell inp y iy c = k) := by
  obtain ⟨y, h1, h2⟩ := mexFunction_ok_distinct (withValues inp X) ⟨htx, hX, hty⟩ hnx hd
  obtain ⟨y1, g1, g2⟩ := mexFunction_ok_distinct (withValues inp X1) ⟨htx, hX1, hty⟩ hnx hd
  have hlin := mexFunction_lin inp a b X X1 (by rw [hX, hX1])
  rw [h1, g1] at hlin
  have h3 : y.length = y1.length := by rw [h2, g2]; rfl
  refine ⟨y, y1, linComb a b y y1, h1, g1, hlin, h2, g2, rfl, ?_, ?_⟩
  · intro iy c
    exact linComb_getD a b y y1 h3 _
  · intro c k hc hk iy hiy
    exact constant_column (withValues inp X) ⟨htx, hX, hty⟩ hnx y c k h1 hc hk iy hiy

/-! ## What the scan over an arithmetic leaves in the buffer -/

set_option maxRecDepth 100000 in
/-- The rounding function on values whose doubles are known: `0.1`, `1/3`, the
weights `1/5` and `1 - fl(1/5)`, a value that is a double, the largest double,
the overflow threshold (a tie, rounded to even, hence to an infinity), and the
ties around the smallest subnormal `2^-1074`. -/
theorem roundD_samples :
    roundD (1 / 10) = .fin (3602879701896397 / 2 ^ 55) ∧
      roundD (1 / 3) = .fin (6004799503160661 / 2 ^ 54) ∧
      roundD (1 / 5) = .fin (3602879701896397 / 2 ^ 54) ∧
      roundD (1 - 3602879701896397 / 2 ^ 54) = .fin (3602879701896397 / 2 ^ 52) ∧
      roundD (-(3 / 8)) = .fin (-(3 / 8)) ∧
      roundD (2 ^ 1024 - 2 ^ 971) = .fin (2 ^ 1024 - 2 ^ 971) ∧
      roundD (2 ^ 1024 - 2 ^ 970) = .inf false ∧
      roundD (-(2 ^ 1024)) = .inf true ∧
      roundD (1 / 2 ^ 1074) = .fin (1 / 2 ^ 1074) ∧
      roundD (1 / 2 ^ 1075) = .fin 0 ∧
      roundD (3 / 2 ^ 1075) = .fin (1 / 2 ^ 1073) := by
  refine ⟨?_, ?_, ?_, ?_, ?_, ?_, ?_, ?_, ?_, ?_, ?_⟩ <;> decide!

end Interp

open Interp

/-- C1: for `nx ≥ 2`, strictly increasing SourceTimes and non-decreasing
QueryTimes the function returns a result, and for every query inside
`[tx[0], tx[nx-1]]`, every column and every bracket `i` with
`tx[i] ≤ ty[iy] ≤ tx[i+1]` the result entry is `(1-p2)*X[i][c] + p2*X[i+1][c]`
with `p2 = (ty[iy]-tx[i])/(tx[i+1]-tx[i])`. -/
theorem C1_interior_linear_interpolation (inp : Input) (hwf : WellFormed inp)
    (hnx : 2 ≤ inp.nx) (hs : StrictInc inp) (hq : NonDec inp) :
    ∃ y, mexFunction inp = .ok y ∧ y.length = inp.ny * inp.ncolumns ∧
      ∀ iy c i, iy < inp.ny → c < inp.ncolumns → i + 2 ≤ inp.nx →
        srcTime inp 0 ≤ qryTime inp iy → qryTime inp iy ≤ srcTime inp (inp.nx - 1) →
        srcTime inp i ≤ qryTime inp iy → qryTime inp iy ≤ srcTime inp (i + 1) →
        cell inp y iy c =
          (1 - (qryTime inp iy - srcTime inp i) / (srcTime inp (i + 1) - srcTime inp i))
              * srcVal inp i c
            + (qryTime inp iy - srcTime inp i) / (srcTime inp (i + 1) - srcTime inp i)
              * srcVal inp (i + 1) c := by
  obtain ⟨y, h1, h2, h3⟩ := result_rows inp hwf hnx hs
  refine ⟨y, h1, h2, ?_⟩
  intro iy c i hiy hc hi _ _ h4 h5
  obtain ⟨ix, p1, p2, h6, h7, h8, h9, h10⟩ := h3 iy hiy
  rw [h10 c hc]
  apply bracket_blend inp hwf.1 hs iy ix i p1 p2 _ _ _ _ (by rw [hwf.2.2]; exact hiy) h6
    (passed_below inp hq hwf.2.2 iy ix hiy h7) h8 h9 hi h4 h5
  · intro h; subst h; exact ⟨rfl, rfl⟩
  · intro h; subst h; rfl

/-- Witness for C1 on the scenario of the specification: the query `1/2` lies in
bracket `0` and gets `15`, the knot query `1` gets `20` from bracket `0` and
from bracket `1` alike. -/
theorem C1_interior_linear_interpolation_witness :
    WellFormed exampleSingle ∧ 2 ≤ exampleSingle.nx ∧ StrictInc exampleSingle ∧
      NonDec exampleSingle ∧
      ∃ y, mexFunction exampleSingle = .ok y ∧ cell exampleSingle y 2 0 = 15 ∧
        cell exampleSingle y 3 0 = 20 := by
  have hwf : WellFormed exampleSingle := by simp [WellFormed, exampleSingle]
  have hnx : 2 ≤ exampleSingle.nx := by simp [exampleSingle]
  have hs : StrictInc exampleSingle := by simp [StrictInc, exampleSingle]
  have hq : NonDec exampleSingle := by norm_num [NonDec, exampleSingle]
  refine ⟨hwf, hnx, hs, hq, ?_⟩
  obtain ⟨y, h1, _, h3⟩ := C1_interior_linear_interpolation exampleSingle hwf hnx hs hq
  refine ⟨y, h1, ?_, ?_⟩
  · have h := h3 2 0 0 (by simp [exampleSingle]) (by simp [exampleSingle])
      (by simp [exampleSingle]) (by norm_num [srcTime, qryTime, exampleSingle])
      (by norm_num [srcTime, qryTime, exampleSingle])
      (by norm_num [srcTime, qryTime, exampleSingle])
      (by norm_num [srcTime, qryTime, exampleSingle])
    rw [h]
    norm_num [srcTime, qryTime, srcVal, exampleSingle]
  · have h := h3 3 0 1 (by simp [exampleSingle]) (by simp [exampleSingle])
      (by simp [exampleSingle]) (by norm_num [srcTime, qryTime, exampleSingle])
      (by norm_num [srcTime, qryTime, exampleSingle])
      (by norm_num [srcTime, qryTime, exampleSingle])
      (by norm_num [srcTime, qryTime, exampleSingle])
    rw [h]
    norm_num [srcTime, qryTime, srcVal, exampleSingle]

/-- C2: for `nx ≥ 2`, strictly increasing SourceTimes and non-decreasing
QueryTimes, every row of the shared-cursor scan equals the row of the reference
that searches the bracket of `QueryTimes[iy]` from scratch and applies the
three-regime blend, and it equals row `0` of interpolating the single-element
query `[QueryTimes[iy]]`. -/
theorem C2_monotone_query_matches_reference (inp : Input) (hwf : WellFormed inp)
    (hnx : 2 ≤ inp.nx) (hs : StrictInc inp) (hq : NonDec inp) :
    ∃ y, mexFunction inp = .ok y ∧ y.length = inp.ny * inp.ncolumns ∧
      ∀ iy c, iy < inp.ny → c < inp.ncolumns →
        cell inp y iy c = refCell inp iy c ∧
        ∃ y1, mexFunction (withQuery inp (qryTime inp iy)) = .ok y1 ∧
          y1.length = inp.ncolumns ∧
          cell (withQuery inp (qryTime inp iy)) y1 0 c = cell inp y iy c := by
  obtain ⟨y, h1, h2, h3⟩ := rows_ref inp hwf hnx hs
  refine ⟨y, h1, h2, ?_⟩
  intro iy c hiy hc
  have h4 := h3 iy c hiy hc (fun j hj => nonDec_le inp hq hwf.2.2 j iy (by omega) hiy)
  refine ⟨h4, ?_⟩
  obtain ⟨y1, g1, g2, g3⟩ := rows_ref (withQuery inp (qryTime inp iy))
    (withQuery_wf inp hwf _) hnx hs
  refine ⟨y1, g1, by simpa [withQuery] using g2, ?_⟩
  rw [g3 0 c (by simp [withQuery]) hc (fun j hj => by omega), refCell_withQuery, h4]

/-- Witness for C2 on the scenario of the specification: row 4 (query `3/2`)
is `25`, as the reference and the single-query run give. -/
theorem C2_monotone_query_matches_reference_witness :
    WellFormed exampleSingle ∧ 2 ≤ exampleSingle.nx ∧ StrictInc exampleSingle ∧
      NonDec exampleSingle ∧
      ∃ y, mexFunction exampleSingle = .ok y ∧ cell exampleSingle y 4 0 = 25 ∧
        mexFunction (withQuery exampleSingle (3 / 2)) = .ok [25] := by
  have hwf : WellFormed exampleSingle := by simp [WellFormed, exampleSingle]
  have hnx : 2 ≤ exampleSingle.nx := by simp [exampleSingle]
  have hs : StrictInc exampleSingle := by simp [StrictInc, exampleSingle]
  have hq : NonDec exampleSingle := by norm_num [NonDec, exampleSingle]
  refine ⟨hwf, hnx, hs, hq, ?_⟩
  obtain ⟨y, h1, _, h3⟩ := C2_monotone_query_matches_reference exampleSingle hwf hnx hs hq
  refine ⟨y, h1, ?_, ?_⟩
  · rw [(h3 4 0 (by simp [exampleSingle]) (by simp [exampleSingle])).1]
    norm_num [refCell, refWeights, refBracket, srcTime, qryTime, srcVal, exampleSingle,
      List.range, List.range.loop, List.find?]
  · simp [mexFunction, scan, outer, body, initY, advance, advanceFuel, whileCond, weights,
      colLoop, rd, wr, withQuery, exampleSingle]
    norm_num

/-- C3: for `nx ≥ 2` and strictly increasing SourceTimes, interpolating at the
single-element query `[SourceTimes[i]]`, for any `i` in `0..nx-1`, returns a
one-row result whose entry in column `c` is exactly `SourceValues[i][c]`. -/
theorem C3_exact_match_at_source_points (inp : Input) (htx : inp.tx.length = inp.nx)
    (hx : inp.x.length = inp.nx * inp.ncolumns) (hnx : 2 ≤ inp.nx) (hs : StrictInc inp)
    (i c : Nat) (hi : i < inp.nx) (hc : c < inp.ncolumns) :
    ∃ y, mexFunction (withQuery inp (srcTime inp i)) = .ok y ∧ y.length = inp.ncolumns ∧
      cell (withQuery inp (srcTime inp i)) y 0 c = srcVal inp i c := by
  obtain ⟨y, h1, h2, h3⟩ := knot_value inp htx hx hnx hs i hi
  exact ⟨y, h1, h2, h3 c hc⟩

/-- Witness for C3 on the scenario of the specification, at the last knot `i = 2`. -/
theorem C3_exact_match_at_source_points_witness :
    exampleSingle.tx.length = exampleSingle.nx ∧
      exampleSingle.x.length = exampleSingle.nx * exampleSingle.ncolumns ∧
      2 ≤ exampleSingle.nx ∧ StrictInc exampleSingle ∧ 2 < exampleSingle.nx ∧
      0 < exampleSingle.ncolumns ∧
      ∃ y, mexFunction (withQuery exampleSingle (srcTime exampleSingle 2)) = .ok y ∧
        y.length = exampleSingle.ncolumns ∧
        cell (withQuery exampleSingle (srcTime exampleSingle 2)) y 0 0 = 30 := by
  have htx : exampleSingle.tx.length = exampleSingle.nx := by simp [exampleSingle]
  have hx : exampleSingle.x.length = exampleSingle.nx * exampleSingle.ncolumns := by
    simp [exampleSingle]
  have hnx : 2 ≤ exampleSingle.nx := by simp [exampleSingle]
  have hs : StrictInc exampleSingle := by simp [StrictInc, exampleSingle]
  have hi : 2 < exampleSingle.nx := by simp [exampleSingle]
  have hc : 0 < exampleSingle.ncolumns := by simp [exampleSingle]
  refine ⟨htx, hx, hnx, hs, hi, hc, ?_⟩
  obtain ⟨y, h1, h2, h3⟩ := C3_exact_match_at_source_points exampleSingle htx hx hnx hs 2 0 hi hc
  refine ⟨y, h1, h2, ?_⟩
  rw [h3]
  simp [srcVal, exampleSingle]

/-- C4 as stated fails: on knots `[0, 1, 2]` with values `[10, 20, 30]` and the
out-of-order queries `[3, -1]`, the second query is served with cursor `1`: the
below-left test `ty[1] < tx[1]` succeeds at a cursor other than `0`, and the
query `-1 < tx[0]` gets `20`, not `SourceValues[0] = 10`. -/
theorem C4_left_clamp_counterexample :
    WellFormed exampleUnsorted ∧ 2 ≤ exampleUnsorted.nx ∧ StrictInc exampleUnsorted ∧
      mexFunction exampleUnsorted = .ok [30, 20] ∧
      scan exampleUnsorted 1 = .ok (1, [30, 0]) ∧ advance exampleUnsorted 1 1 = .ok 1 ∧
      qryTime exampleUnsorted 1 < srcTime exampleUnsorted 1 ∧
      qryTime exampleUnsorted 1 < srcTime exampleUnsorted 0 ∧
      cell exampleUnsorted [30, 20] 1 0 = 20 ∧ srcVal exampleUnsorted 0 0 = 10 := by
  refine ⟨by simp [WellFormed, exampleUnsorted], by simp [exampleUnsorted],
    by simp [StrictInc, exampleUnsorted], ?_, ?_, ?_, ?_, ?_, ?_, ?_⟩
  · simp [mexFunction, scan, outer, body, initY, advance, advanceFuel, whileCond, weights,
      colLoop, rd, wr, srcTime, qryTime, srcVal, cell, exampleUnsorted]
    norm_num
  · simp [mexFunction, scan, outer, body, initY, advance, advanceFuel, whileCond, weights,
      colLoop, rd, wr, srcTime, qryTime, srcVal, cell, exampleUnsorted]
    norm_num
  · simp [mexFunction, scan, outer, body, initY, advance, advanceFuel, whileCond, weights,
      colLoop, rd, wr, srcTime, qryTime, srcVal, cell, exampleUnsorted]
  · norm_num [srcTime, qryTime, exampleUnsorted]
  · norm_num [srcTime, qryTime, exampleUnsorted]
  · simp [cell, exampleUnsorted]
  · simp [srcVal, exampleUnsorted]

/-- C4, amended: for `nx ≥ 2` and strictly increasing SourceTimes, at every
query index `iy` that no earlier query exceeds (every index, when QueryTimes
is non-decreasing), the below-left test `ty[iy] < tx[ix]` succeeds only at
cursor `ix = 0`, and whenever `ty[iy] < tx[0]` row `iy` of the result equals
`SourceValues[0, :]`. -/
theorem C4_left_clamp_amended (inp : Input) (hwf : WellFormed inp) (hnx : 2 ≤ inp.nx)
    (hs : StrictInc inp) (iy : Nat) (hiy : iy < inp.ny)
    (hdom : ∀ j, j < iy → qryTime inp j ≤ qryTime inp iy) :
    ∃ y, mexFunction inp = .ok y ∧ y.length = inp.ny * inp.ncolumns ∧
      ∃ ixb yb ix, scan inp iy = .ok (ixb, yb) ∧ advance inp iy ixb = .ok ix ∧
        (qryTime inp iy < srcTime inp ix → ix = 0) ∧
        (qryTime inp iy < srcTime inp 0 →
          ∀ c, c < inp.ncolumns → cell inp y iy c = srcVal inp 0 c) :=
  left_clamp inp hwf hnx hs iy hiy hdom

/-- Witness for the amended C4 on the scenario of the specification: query `0`
is `-1 < tx[0]` and row `0` is `10`. -/
theorem C4_left_clamp_amended_witness :
    WellFormed exampleSingle ∧ 2 ≤ exampleSingle.nx ∧ StrictInc exampleSingle ∧
      0 < exampleSingle.ny ∧ (∀ j, j < 0 → qryTime exampleSingle j ≤ qryTime exampleSingle 0) ∧
      qryTime exampleSingle 0 < srcTime exampleSingle 0 ∧
      ∃ y, mexFunction exampleSingle = .ok y ∧ cell exampleSingle y 0 0 = 10 := by
  have hwf : WellFormed exampleSingle := by simp [WellFormed, exampleSingle]
  have hnx : 2 ≤ exampleSingle.nx := by simp [exampleSingle]
  have hs : StrictInc exampleSingle := by simp [StrictInc, exampleSingle]
  have hiy : 0 < exampleSingle.ny := by simp [exampleSingle]
  have hdom : ∀ j, j < 0 → qryTime exampleSingle j ≤ qryTime exampleSingle 0 :=
    fun j hj => absurd hj (Nat.not_lt_zero j)
  have hlt : qryTime exampleSingle 0 < srcTime exampleSingle 0 := by
    norm_num [srcTime, qryTime, exampleSingle]
  refine ⟨hwf, hnx, hs, hiy, hdom, hlt, ?_⟩
  obtain ⟨y, h1, _, _, _, _, _, _, _, h2⟩ :=
    C4_left_clamp_amended exampleSingle hwf hnx hs 0 hiy hdom
  refine ⟨y, h1, ?_⟩
  rw [h2 hlt 0 (by simp [exampleSingle])]
  simp [srcVal, exampleSingle]

/-- C5: for `nx ≥ 2`, strictly increasing SourceTimes and queries in any order,
the beyond-right test `tx[ix+1] < ty[iy]` (after the cursor advance) succeeds
only at cursor `ix = nx-2`, and whenever `ty[iy] > tx[nx-1]` row `iy` of the
result equals `SourceValues[nx-1, :]`. -/
theorem C5_right_clamp (inp : Input) (hwf : WellFormed inp) (hnx : 2 ≤ inp.nx)
    (hs : StrictInc inp) (iy : Nat) (hiy : iy < inp.ny) :
    ∃ y, mexFunction inp = .ok y ∧ y.length = inp.ny * inp.ncolumns ∧
      ∃ ixb yb ix, scan inp iy = .ok (ixb, yb) ∧ advance inp iy ixb = .ok ix ∧
        (srcTime inp (ix + 1) < qryTime inp iy → ix + 2 = inp.nx) ∧
        (srcTime inp (inp.nx - 1) < qryTime inp iy →
          ∀ c, c < inp.ncolumns → cell inp y iy c = srcVal inp (inp.nx - 1) c) :=
  right_clamp inp hwf hnx hs iy hiy

/-- Witness for C5 on the out-of-order example: query `0` is `3 > tx[2]` and
row `0` is `30`. -/
theorem C5_right_clamp_witness :
    WellFormed exampleUnsorted ∧ 2 ≤ exampleUnsorted.nx ∧ StrictInc exampleUnsorted ∧
      0 < exampleUnsorted.ny ∧
      srcTime exampleUnsorted (exampleUnsorted.nx - 1) < qryTime exampleUnsorted 0 ∧
      ∃ y, mexFunction exampleUnsorted = .ok y ∧ cell exampleUnsorted y 0 0 = 30 := by
  have hwf : WellFormed exampleUnsorted := by simp [WellFormed, exampleUnsorted]
  have hnx : 2 ≤ exampleUnsorted.nx := by simp [exampleUnsorted]
  have hs : StrictInc exampleUnsorted := by simp [StrictInc, exampleUnsorted]
  have hiy : 0 < exampleUnsorted.ny := by simp [exampleUnsorted]
  have hlt : srcTime exampleUnsorted (exampleUnsorted.nx - 1) < qryTime exampleUnsorted 0 := by
    norm_num [srcTime, qryTime, exampleUnsorted]
  refine ⟨hwf, hnx, hs, hiy, hlt, ?_⟩
  obtain ⟨y, h1, _, _, _, _, _, _, _, h2⟩ := C5_right_clamp exampleUnsorted hwf hnx hs 0 hiy
  refine ⟨y, h1, ?_⟩
  rw [h2 hlt 0 (by simp [exampleUnsorted])]
  simp [srcVal, exampleUnsorted]

set_option maxRecDepth 100000 in
/-- C6 as stated fails on doubles: with the knots `[0, 5]`, the constant column
`[3, 3]` and the query `1` (all doubles) the code computes `p2 = fl(1/5)`,
`p1 = fl(1 - p2)` and stores `fl(fl(p1*3) + fl(p2*3)) = 3 + 2^-51`, which is
above `max(X[0], X[1]) = 3` and is no convex combination of `X[0]` and `X[1]`. -/
theorem C6_convexity_counterexample :
    WellFormed exampleRounding ∧ 2 ≤ exampleRounding.nx ∧ StrictInc exampleRounding ∧
      (exampleRounding.tx ++ exampleRounding.x ++ exampleRounding.ty).all isDouble = true ∧
      mexFunctionM ieee exampleRounding = .ok [.fin (3 + 1 / 2 ^ 51), .fin 3] ∧
      max (srcVal exampleRounding 0 0) (srcVal exampleRounding 1 0) < 3 + 1 / 2 ^ 51 ∧
      ∀ p1 p2 : ℚ, p1 + p2 = 1 →
        p1 * srcVal exampleRounding 0 0 + p2 * srcVal exampleRounding 1 0 ≠ 3 + 1 / 2 ^ 51 := by
  have h0 : srcVal exampleRounding 0 0 = 3 := by decide!
  have h1 : srcVal exampleRounding 1 0 = 3 := by decide!
  refine ⟨by simp [WellFormed, exampleRounding], by simp [exampleRounding],
    by simp [StrictInc, exampleRounding], by decide!, by decide!, ?_, ?_⟩
  · rw [h0, h1]; norm_num
  · intro p1 p2 h
    rw [h0, h1, ← add_mul, h]
    norm_num

/-- C6, amended: in exact arithmetic, for `nx ≥ 2`, strictly increasing
SourceTimes and queries in any order, every row `iy` has an index `ix` in
`0..nx-2` and weights `p1, p2` in `[0,1]` with `p1 + p2 = 1`, the same for all
columns, such that `Result[iy][c] = p1*X[ix][c] + p2*X[ix+1][c]`; hence each
entry lies between the minimum and the maximum of `X[ix][c]` and `X[ix+1][c]`. -/
theorem C6_convexity_amended (inp : Input) (hwf : WellFormed inp) (hnx : 2 ≤ inp.nx)
    (hs : StrictInc inp) :
    ∃ y, mexFunction inp = .ok y ∧ y.length = inp.ny * inp.ncolumns ∧
      ∀ iy, iy < inp.ny → ∃ ix p1 p2, ix + 2 ≤ inp.nx ∧
        0 ≤ p1 ∧ p1 ≤ 1 ∧ 0 ≤ p2 ∧ p2 ≤ 1 ∧ p1 + p2 = 1 ∧
        ∀ c, c < inp.ncolumns →
          cell inp y iy c = p1 * srcVal inp ix c + p2 * srcVal inp (ix + 1) c ∧
          min (srcVal inp ix c) (srcVal inp (ix + 1) c) ≤ cell inp y iy c ∧
          cell inp y iy c ≤ max (srcVal inp ix c) (srcVal inp (ix + 1) c) := by
  obtain ⟨y, h1, h2, h3⟩ := result_rows inp hwf hnx hs
  refine ⟨y, h1, h2, ?_⟩
  intro iy hiy
  obtain ⟨ix, p1, p2, h4, _, _, h7, h8⟩ := h3 iy hiy
  obtain ⟨g1, g2, g3, g4, g5⟩ :=
    weights_convex inp hs iy ix p1 p2 hwf.1 (by rw [hwf.2.2]; exact hiy) h4 h7
  refine ⟨ix, p1, p2, h4, g1, g2, g3, g4, g5, ?_⟩
  intro c hc
  rw [h8 c hc]
  exact ⟨rfl, convex_between p1 p2 _ _ g1 g3 g5⟩

/-- Witness for the amended C6 on the out-of-order example: the function returns `[30, 20]`,
and the theorem applies to it. -/
theorem C6_convexity_amended_witness :
    WellFormed exampleUnsorted ∧ 2 ≤ exampleUnsorted.nx ∧ StrictInc exampleUnsorted ∧
      ∃ y, mexFunction exampleUnsorted = .ok y ∧ y = [30, 20] ∧
        ∀ iy, iy < exampleUnsorted.ny → ∃ ix, ix + 2 ≤ exampleUnsorted.nx ∧
          min (srcVal exampleUnsorted ix 0) (srcVal exampleUnsorted (ix + 1) 0)
              ≤ cell exampleUnsorted y iy 0 ∧
            cell exampleUnsorted y iy 0
              ≤ max (srcVal exampleUnsorted ix 0) (srcVal exampleUnsorted (ix + 1) 0) := by
  have hwf : WellFormed exampleUnsorted := by simp [WellFormed, exampleUnsorted]
  have hnx : 2 ≤ exampleUnsorted.nx := by simp [exampleUnsorted]
  have hs : StrictInc exampleUnsorted := by simp [StrictInc, exampleUnsorted]
  refine ⟨hwf, hnx, hs, ?_⟩
  obtain ⟨y, h1, _, h3⟩ := C6_convexity_amended exampleUnsorted hwf hnx hs
  have hy : mexFunction exampleUnsorted = .ok [30, 20] := by
    simp [mexFunction, scan, outer, body, initY, advance, advanceFuel, whileCond, weights,
      colLoop, rd, wr, srcTime, qryTime, srcVal, cell, exampleUnsorted]
    norm_num
  refine ⟨y, h1, ?_, ?_⟩
  · rw [hy] at h1
    simp only [Except.ok.injEq] at h1
    exact h1.symm
  · intro iy hiy
    obtain ⟨ix, p1, p2, h4, _, _, _, _, _, h5⟩ := h3 iy hiy
    exact ⟨ix, h4, (h5 0 (by simp [exampleUnsorted])).2⟩

/-- C8: with SourceTimes `[0, 1, 2]`, the single column `[10, 20, 30]` and
QueryTimes `[-1, 0, 1/2, 1, 3/2, 2, 3]` the result is the single column
`[10, 10, 15, 20, 25, 30, 30]`. -/
theorem C8_single_column_scenario :
    mexFunction exampleSingle = .ok [10, 10, 15, 20, 25, 30, 30] := by
  simp [mexFunction, scan, outer, body, initY, advance, advanceFuel, whileCond, weights,
    colLoop, rd, wr, exampleSingle]
  norm_num

/-- C9: with SourceTimes `[0, 2]`, the `2x2` SourceValues with rows `[0, 100]`
and `[10, 200]` (column-major `[0, 10, 100, 200]`) and QueryTimes `[1]` the
result is the `1x2` matrix `[[5, 150]]` (column-major `[5, 150]`): entry
`(0,0)` is `5` and entry `(0,1)` is `150`. -/
theorem C9_multi_column_scenario :
    mexFunction exampleMulti = .ok [5, 150] ∧
      srcVal exampleMulti 0 0 = 0 ∧ srcVal exampleMulti 0 1 = 100 ∧
      srcVal exampleMulti 1 0 = 10 ∧ srcVal exampleMulti 1 1 = 200 ∧
      cell exampleMulti [5, 150] 0 0 = 5 ∧ cell exampleMulti [5, 150] 0 1 = 150 := by
  refine ⟨?_, ?_, ?_, ?_, ?_, ?_, ?_⟩
  · simp [mexFunction, scan, outer, body, initY, advance, advanceFuel, whileCond, weights,
    colLoop, rd, wr, exampleMulti]
    norm_num
  all_goals simp [srcVal, cell, exampleMulti]

/-- C12: there is an input with `nx ≥ 2`, strictly increasing SourceTimes and
QueryTimes that is not non-decreasing for which a row differs from the result
of interpolating that query alone: knots `[0, 1, 2]`, values `[10, 20, 30]`,
queries `[3, 1/2]` give `[30, 20]`, whereas the query `1/2` alone gives `[15]`;
row `1` is served at cursor `1`, past the bracket `0` of `1/2`. -/
theorem C12_out_of_order_uses_right_interval :
    WellFormed exampleOutOfOrder ∧ 2 ≤ exampleOutOfOrder.nx ∧
      StrictInc exampleOutOfOrder ∧ ¬ NonDec exampleOutOfOrder ∧
      mexFunction exampleOutOfOrder = .ok [30, 20] ∧
      mexFunction (withQuery exampleOutOfOrder (qryTime exampleOutOfOrder 1)) = .ok [15] ∧
      cell exampleOutOfOrder [30, 20] 1 0 = 20 ∧
      cell (withQuery exampleOutOfOrder (qryTime exampleOutOfOrder 1)) [15] 0 0 = 15 ∧
      scan exampleOutOfOrder 1 = .ok (1, [30, 0]) ∧ advance exampleOutOfOrder 1 1 = .ok 1 ∧
      refBracket exampleOutOfOrder (qryTime exampleOutOfOrder 1) = 0 := by
  refine ⟨by simp [WellFormed, exampleOutOfOrder], by simp [exampleOutOfOrder],
    by simp [StrictInc, exampleOutOfOrder], by norm_num [NonDec, exampleOutOfOrder],
    ?_, ?_, ?_, ?_, ?_, ?_, ?_⟩
  · simp [mexFunction, scan, outer, body, initY, advance, advanceFuel, whileCond, weights,
      colLoop, rd, wr, srcTime, qryTime, srcVal, cell, withQuery, exampleOutOfOrder]
    norm_num
  · simp [mexFunction, scan, outer, body, initY, advance, advanceFuel, whileCond, weights,
      colLoop, rd, wr, srcTime, qryTime, srcVal, cell, withQuery, exampleOutOfOrder]
    norm_num
  · simp [cell, exampleOutOfOrder]
  · simp [cell, withQuery, exampleOutOfOrder]
  · simp [mexFunction, scan, outer, body, initY, advance, advanceFuel, whileCond, weights,
      colLoop, rd, wr, srcTime, qryTime, srcVal, cell, withQuery, exampleOutOfOrder]
    norm_num
  · simp [mexFunction, scan, outer, body, initY, advance, advanceFuel, whileCond, weights,
      colLoop, rd, wr, srcTime, qryTime, srcVal, cell, withQuery, exampleOutOfOrder]
  · norm_num [refBracket, srcTime, qryTime, exampleOutOfOrder, List.range, List.range.loop,
      List.find?]

/-- C13: for `nx < 2`, `ny ≥ 1`, `ncolumns ≥ 1` and buffers of the announced
sizes, the guard `ix < nx-2` is false, so the `while` loop leaves the cursor
at `0`, and the first query reads outside a buffer (`tx[0]` when `nx = 0`;
`tx[1]`, or `x[c*nx+1]` in the last column, when `nx = 1`): the checked scan
stops with `outOfBounds` on the first query, and so does the function. -/
theorem C13_degenerate_nx_out_of_bounds (inp : Input) (hwf : WellFormed inp)
    (hnx : inp.nx < 2) (hny : 1 ≤ inp.ny) (hnc : 1 ≤ inp.ncolumns) :
    whileCond inp 0 0 = .ok false ∧ advance inp 0 0 = .ok 0 ∧
      body inp 0 0 (initY inp) = .error .outOfBounds ∧
      scan inp 1 = .error .outOfBounds ∧ mexFunction inp = .error .outOfBounds ∧
      (inp.nx = 0 → rd inp.tx 0 = .error .outOfBounds ∧
        weights inp 0 0 = .error .outOfBounds) ∧
      (inp.nx = 1 → rd inp.tx 1 = .error .outOfBounds ∧
        rd inp.x ((inp.ncolumns - 1) * inp.nx + 0 + 1) = .error .outOfBounds ∧
        (qryTime inp 0 < srcTime inp 0 → weights inp 0 0 = .ok (1, 0) ∧
          colLoop inp 1 0 0 0 inp.ncolumns 0 (initY inp) = .error .outOfBounds) ∧
        (¬ qryTime inp 0 < srcTime inp 0 → weights inp 0 0 = .error .outOfBounds)) := by
  obtain ⟨htx, hx, hty⟩ := hwf
  obtain ⟨h1, h2⟩ := degenerate_mexFunction inp hnx hny hnc htx hx
  refine ⟨degenerate_whileCond inp hnx 0 0, degenerate_advance inp hnx 0 0,
    degenerate_body inp hnx hny hnc htx hx _, h1, h2, ?_, ?_⟩
  · intro h0
    have hr : rd inp.tx 0 = .error .outOfBounds := rd_of_le (by omega)
    refine ⟨hr, ?_⟩
    unfold weights
    rw [rd_of_lt (show 0 < inp.ty.length by omega), hr]
  · intro h1
    have hr : rd inp.tx 1 = .error .outOfBounds := rd_of_le (by omega)
    refine ⟨hr, rd_of_le (by rw [hx, h1]; omega), ?_, ?_⟩
    · intro hlt
      refine ⟨?_, degenerate_colLoop inp hnx hny hnc hx _ _ _⟩
      unfold weights
      rw [rd_of_lt (show 0 < inp.ty.length by omega), rd_of_lt (show 0 < inp.tx.length by omega)]
      simp only []
      rw [if_pos (show inp.ty.getD 0 0 < inp.tx.getD 0 0 from hlt)]
    · intro hge
      unfold weights
      rw [rd_of_lt (show 0 < inp.ty.length by omega), rd_of_lt (show 0 < inp.tx.length by omega)]
      simp only []
      rw [if_neg (show ¬ inp.ty.getD 0 0 < inp.tx.getD 0 0 from hge)]
      have hr1 : rd inp.tx (0 + 1) = .error .outOfBounds := hr
      rw [hr1]

/-- Witness for C13 on a single-knot input with two columns: the query `3` is
below the knot `5`, column `0` is written, and the read `x[2]` for column `1`
is outside `x`. -/
theorem C13_degenerate_nx_out_of_bounds_witness :
    WellFormed exampleDegenerate ∧ exampleDegenerate.nx < 2 ∧ 1 ≤ exampleDegenerate.ny ∧
      1 ≤ exampleDegenerate.ncolumns ∧
      mexFunction exampleDegenerate = .error .outOfBounds ∧
      weights exampleDegenerate 0 0 = .ok (1, 0) ∧
      rd exampleDegenerate.x 2 = .error .outOfBounds := by
  have hwf : WellFormed exampleDegenerate := by simp [WellFormed, exampleDegenerate]
  have hnx : exampleDegenerate.nx < 2 := by simp [exampleDegenerate]
  have hny : 1 ≤ exampleDegenerate.ny := by simp [exampleDegenerate]
  have hnc : 1 ≤ exampleDegenerate.ncolumns := by simp [exampleDegenerate]
  obtain ⟨_, _, _, _, h5, _, h7⟩ :=
    C13_degenerate_nx_out_of_bounds exampleDegenerate hwf hnx hny hnc
  obtain ⟨_, h8, h9, _⟩ := h7 (by simp [exampleDegenerate])
  refine ⟨hwf, hnx, hny, hnc, h5, ?_, ?_⟩
  · exact (h9 (by norm_num [srcTime, qryTime, exampleDegenerate])).1
  · simpa [exampleDegenerate] using h8

/-- C14: for every `nx`, `ny`, `ncolumns` and every content of the buffers the
scan terminates: the loop condition holds only while `ix < nx-2`, so each
`ix++` strictly decreases `nx-2-ix` and one `while` loop executes at most
`nx-2-ix` of them; the fuel of the `while` loop is never exhausted; and the two
nested loops, defined as one function by well-founded recursion on
`(ny - iy, nx - 2 - ix)`, compute the function (the column loop and the outer
loop are counted). -/
theorem C14_termination (inp : Input) :
    (∀ iy ix, whileCond inp iy ix = .ok true →
      ix + 2 < inp.nx ∧ inp.nx - 2 - (ix + 1) < inp.nx - 2 - ix) ∧
      (∀ iy ix, advance inp iy ix ≠ .error .outOfFuel) ∧
      (∀ iy ix ix1, advance inp iy ix = .ok ix1 →
        ix1 = ix + increments inp iy (inp.nx + 1) ix ∧
          increments inp iy (inp.nx + 1) ix ≤ inp.nx - 2 - ix) ∧
      (∀ k, scan inp k ≠ .error .outOfFuel) ∧
      mexFunction inp ≠ .error .outOfFuel ∧
      run inp 0 0 (initY inp) = mexFunction inp := by
  refine ⟨?_, advance_ne_outOfFuel inp, ?_, scan_ne_outOfFuel inp,
    mexFunction_ne_outOfFuel inp, run_eq_mexFunction inp⟩
  · intro iy ix h
    have := whileCond_true_lt inp iy ix h
    exact ⟨this, by omega⟩
  · intro iy ix ix1 h
    exact ⟨advanceFuel_increments inp iy _ ix ix1 h, increments_le inp iy _ ix⟩

/-- C15: for `nx ≥ 2`, strictly increasing SourceTimes and queries in any
order, the cursor `ix` with which row `iy` is computed equals the reference
bracket of `M = max(ty[0], ..., ty[iy])`; in particular a query
`ty[iy] < tx[ix]` gets `SourceValues[ix, :]`. -/
theorem C15_cursor_is_bracket_of_running_max (inp : Input) (hwf : WellFormed inp)
    (hnx : 2 ≤ inp.nx) (hs : StrictInc inp) (iy : Nat) (hiy : iy < inp.ny) :
    ∃ y, mexFunction inp = .ok y ∧ y.length = inp.ny * inp.ncolumns ∧
      ∃ ixb yb ix p1 p2, scan inp iy = .ok (ixb, yb) ∧ advance inp iy ixb = .ok ix ∧
        weights inp iy ix = .ok (p1, p2) ∧
        (∀ c, c < inp.ncolumns →
          cell inp y iy c = p1 * srcVal inp ix c + p2 * srcVal inp (ix + 1) c) ∧
        ix = refBracket inp (runMax inp iy) ∧
        (qryTime inp iy < srcTime inp ix →
          ∀ c, c < inp.ncolumns → cell inp y iy c = srcVal inp ix c) :=
  cursor_runMax inp hwf hnx hs iy hiy

/-- Witness for C15 on the out-of-order example `[3, 1/2]`: at row `1` the
running maximum is `3`, its bracket is `1`, and the query `1/2 < tx[1]` gets
`SourceValues[1] = 20`. -/
theorem C15_cursor_is_bracket_of_running_max_witness :
    WellFormed exampleOutOfOrder ∧ 2 ≤ exampleOutOfOrder.nx ∧ StrictInc exampleOutOfOrder ∧
      1 < exampleOutOfOrder.ny ∧ runMax exampleOutOfOrder 1 = 3 ∧
      refBracket exampleOutOfOrder (runMax exampleOutOfOrder 1) = 1 ∧
      ∃ y, mexFunction exampleOutOfOrder = .ok y ∧ cell exampleOutOfOrder y 1 0 = 20 := by
  have hwf : WellFormed exampleOutOfOrder := by simp [WellFormed, exampleOutOfOrder]
  have hnx : 2 ≤ exampleOutOfOrder.nx := by simp [exampleOutOfOrder]
  have hs : StrictInc exampleOutOfOrder := by simp [StrictInc, exampleOutOfOrder]
  have hiy : 1 < exampleOutOfOrder.ny := by simp [exampleOutOfOrder]
  have hm : runMax exampleOutOfOrder 1 = 3 := by
    norm_num [runMax, qryTime, exampleOutOfOrder]
  have hb : refBracket exampleOutOfOrder (runMax exampleOutOfOrder 1) = 1 := by
    rw [hm]
    norm_num [refBracket, srcTime, exampleOutOfOrder, List.range, List.range.loop, List.find?]
  refine ⟨hwf, hnx, hs, hiy, hm, hb, ?_⟩
  obtain ⟨y, h1, _, _, _, ix, _, _, _, _, _, _, h7, h8⟩ :=
    C15_cursor_is_bracket_of_running_max exampleOutOfOrder hwf hnx hs 1 hiy
  refine ⟨y, h1, ?_⟩
  rw [hb] at h7
  subst h7
  rw [h8 (by norm_num [srcTime, qryTime, exampleOutOfOrder]) 0 (by simp [exampleOutOfOrder])]
  simp [srcVal, exampleOutOfOrder]

set_option maxRecDepth 100000 in
/-- C16 as stated fails on doubles: with the knots `[0, 5]`, the constant (hence
non-decreasing) column `[3, 3]` and the non-decreasing queries `[1, 2]` (all
doubles) the code returns `[3 + 2^-51, 3]`, a decreasing column. -/
theorem C16_monotonicity_preservation_counterexample :
    WellFormed exampleRounding ∧ 2 ≤ exampleRounding.nx ∧ StrictInc exampleRounding ∧
      NonDec exampleRounding ∧
      (exampleRounding.tx ++ exampleRounding.x ++ exampleRounding.ty).all isDouble = true ∧
      (∀ i, i + 1 < exampleRounding.nx →
        srcVal exampleRounding i 0 ≤ srcVal exampleRounding (i + 1) 0) ∧
      mexFunctionM ieee exampleRounding = .ok [.fin (3 + 1 / 2 ^ 51), .fin 3] ∧
      (3 : ℚ) < 3 + 1 / 2 ^ 51 := by
  refine ⟨by simp [WellFormed, exampleRounding], by simp [exampleRounding],
    by simp [StrictInc, exampleRounding], by norm_num [NonDec, exampleRounding], by decide!,
    ?_, by decide!, by norm_num⟩
  intro i hi
  have h0 : i = 0 := by
    simp only [exampleRounding] at hi
    omega
  subst h0
  decide!

/-- C16, amended: in exact arithmetic, for `nx ≥ 2`, strictly increasing
SourceTimes and non-decreasing QueryTimes, if column `c` of SourceValues is
non-decreasing then column `c` of the result is non-decreasing in `iy`, and if
it is non-increasing then so is column `c` of the result. -/
theorem C16_monotonicity_preservation_amended (inp : Input) (hwf : WellFormed inp)
    (hnx : 2 ≤ inp.nx) (hs : StrictInc inp) (hq : NonDec inp) (c : Nat)
    (hc : c < inp.ncolumns) :
    ∃ y, mexFunction inp = .ok y ∧ y.length = inp.ny * inp.ncolumns ∧
      ((∀ i, i + 1 < inp.nx → srcVal inp i c ≤ srcVal inp (i + 1) c) →
        ∀ iy iy1, iy ≤ iy1 → iy1 < inp.ny → cell inp y iy c ≤ cell inp y iy1 c) ∧
      ((∀ i, i + 1 < inp.nx → srcVal inp (i + 1) c ≤ srcVal inp i c) →
        ∀ iy iy1, iy ≤ iy1 → iy1 < inp.ny → cell inp y iy1 c ≤ cell inp y iy c) :=
  column_monotone inp hwf hnx hs hq c hc

/-- Witness for the amended C16 on the scenario of the specification: the column
`[10, 20, 30]` is non-decreasing, and row `2` is at most row `4`. -/
theorem C16_monotonicity_preservation_amended_witness :
    WellFormed exampleSingle ∧ 2 ≤ exampleSingle.nx ∧ StrictInc exampleSingle ∧
      NonDec exampleSingle ∧ 0 < exampleSingle.ncolumns ∧
      (∀ i, i + 1 < exampleSingle.nx →
        srcVal exampleSingle i 0 ≤ srcVal exampleSingle (i + 1) 0) ∧
      ∃ y, mexFunction exampleSingle = .ok y ∧
        cell exampleSingle y 2 0 ≤ cell exampleSingle y 4 0 := by
  have hwf : WellFormed exampleSingle := by simp [WellFormed, exampleSingle]
  have hnx : 2 ≤ exampleSingle.nx := by simp [exampleSingle]
  have hs : StrictInc exampleSingle := by simp [StrictInc, exampleSingle]
  have hq : NonDec exampleSingle := by norm_num [NonDec, exampleSingle]
  have hc : 0 < exampleSingle.ncolumns := by simp [exampleSingle]
  have hm : ∀ i, i + 1 < exampleSingle.nx →
      srcVal exampleSingle i 0 ≤ srcVal exampleSingle (i + 1) 0 := by
    intro i hi
    have h01 : i = 0 ∨ i = 1 := by
      simp only [exampleSingle] at hi
      omega
    rcases h01 with h | h <;> subst h <;> norm_num [srcVal, exampleSingle]
  refine ⟨hwf, hnx, hs, hq, hc, hm, ?_⟩
  obtain ⟨y, h1, _, h3, _⟩ := C16_monotonicity_preservation_amended exampleSingle hwf hnx hs hq 0 hc
  exact ⟨y, h1, h3 hm 2 4 (by omega) (by simp [exampleSingle])⟩

set_option maxRecDepth 100000 in
/-- C18 as stated fails on doubles and on a duplicate knot.  With the knots
`[0, 5]` and the queries `[1, 2]`: the constant column `[3, 3]` gives
`[3 + 2^-51, 3]`, not the constant `3`; and with `X = [0, 0]`, `X1 = [1, 1]`,
`a = 2`, `b = 3` the results for `X` and `X1` are `[0, 0]` and `[1, 1]`, whose
combination is `3`, while the result for `a*X + b*X1 = [3, 3]` starts with
`3 + 2^-51`.  With the duplicate knot `[1, 1]` and the constant column `[5, 5]`
the query `1` divides `0` by `0`: the code stores a NaN in that row, and in
exact arithmetic the row has no value. -/
theorem C18_linearity_counterexample :
    (exampleRounding.tx ++ exampleRounding.x ++ exampleRounding.ty).all isDouble = true ∧
      (∀ i, i < exampleRounding.nx → srcVal exampleRounding i 0 = 3) ∧
      mexFunctionM ieee exampleRounding = .ok [.fin (3 + 1 / 2 ^ 51), .fin 3] ∧
      linComb 2 3 [0, 0] [1, 1] = [3, 3] ∧
      mexFunctionM ieee (withValues exampleRounding [0, 0]) = .ok [.fin 0, .fin 0] ∧
      mexFunctionM ieee (withValues exampleRounding [1, 1]) = .ok [.fin 1, .fin 1] ∧
      mexFunctionM ieee (withValues exampleRounding (linComb 2 3 [0, 0] [1, 1]))
        = .ok [.fin (3 + 1 / 2 ^ 51), .fin 3] ∧
      ieee.add (ieee.mul (.fin 2) (.fin 0)) (ieee.mul (.fin 3) (.fin 1)) = .fin 3 ∧
      (2 * 0 + 3 * 1 : ℚ) ≠ 3 + 1 / 2 ^ 51 ∧
      WellFormed exampleDuplicate ∧ 2 ≤ exampleDuplicate.nx ∧
      ¬ DistinctKnots exampleDuplicate ∧
      (∀ i, i < exampleDuplicate.nx → srcVal exampleDuplicate i 0 = 5) ∧
      mexFunctionM ieee exampleDuplicate = .ok [.fin 5, .nan, .fin 5] ∧
      mexFunctionM exactArith exampleDuplicate = .ok [some 5, none, some 5] ∧
      mexFunction exampleDuplicate = .error .divByZero := by
  refine ⟨by decide!, ?_, by decide!, by decide!, by decide!, by decide!, by decide!,
    by decide!, by norm_num, by simp [WellFormed, exampleDuplicate],
    by simp [exampleDuplicate], ?_, ?_, by decide!, by decide!, by decide!⟩
  · intro i hi
    have h01 : i = 0 ∨ i = 1 := by
      simp only [exampleRounding] at hi
      omega
    rcases h01 with h | h <;> subst h <;> decide!
  · intro h
    exact h 0 (by simp [exampleDuplicate]) (by decide!)
  · intro i hi
    have h01 : i = 0 ∨ i = 1 := by
      simp only [exampleDuplicate] at hi
      omega
    rcases h01 with h | h <;> subst h <;> decide!

/-- C18, amended: in exact arithmetic, for `nx ≥ 2`, SourceTimes of length `nx`
with no two adjacent knots equal, any QueryTimes, scalars `a, b` and
SourceValues buffers `X`, `X1` of the same shape: the cursor and the weights do
not depend on the values; the three runs return, and interpolating
`a*X + b*X1` gives `a*(result for X) + b*(result for X1)` entrywise; and a
column of `X` that is constant `k` gives a column of the result that is
constant `k`. -/
theorem C18_linearity_amended (inp : Input) (a b : ℚ) (X X1 : List ℚ)
    (hnx : 2 ≤ inp.nx) (htx : inp.tx.length = inp.nx) (hty : inp.ty.length = inp.ny)
    (hX : X.length = inp.nx * inp.ncolumns) (hX1 : X1.length = inp.nx * inp.ncolumns)
    (hd : DistinctKnots inp) :
    (∀ iy ix, advance (withValues inp X) iy ix = advance inp iy ix ∧
      weights (withValues inp X) iy ix = weights inp iy ix) ∧
      ∃ y y1 yl, mexFunction (withValues inp X) = .ok y ∧
        mexFunction (withValues inp X1) = .ok y1 ∧
        mexFunction (withValues inp (linComb a b X X1)) = .ok yl ∧
        y.length = inp.ny * inp.ncolumns ∧ y1.length = inp.ny * inp.ncolumns ∧
        yl = linComb a b y y1 ∧
        (∀ iy c, cell inp yl iy c = a * cell inp y iy c + b * cell inp y1 iy c) ∧
        (∀ c k, c < inp.ncolumns → (∀ i, i < inp.nx → srcVal (withValues inp X) i c = k) →
          ∀ iy, iy < inp.ny → cell inp y iy c = k) :=
  ⟨fun iy ix => ⟨advance_withValues inp X iy ix, weights_withValues inp X iy ix⟩,
    linear_distinct inp a b X X1 hnx htx hty hX hX1 hd⟩

set_option maxRecDepth 100000 in
/-- Witness for the amended C18 on the scenario of the specification, with
`X = [10, 20, 30]`, the constant column `X1 = [1, 1, 1]`, `a = 2` and `b = 3`. -/
theorem C18_linearity_amended_witness :
    2 ≤ exampleSingle.nx ∧ exampleSingle.tx.length = exampleSingle.nx ∧
      exampleSingle.ty.length = exampleSingle.ny ∧ DistinctKnots exampleSingle ∧
      mexFunction (withValues exampleSingle [10, 20, 30]) = .ok [10, 10, 15, 20, 25, 30, 30] ∧
      mexFunction (withValues exampleSingle [1, 1, 1]) = .ok [1, 1, 1, 1, 1, 1, 1] ∧
      mexFunction (withValues exampleSingle (linComb 2 3 [10, 20, 30] [1, 1, 1]))
        = .ok [23, 23, 33, 43, 53, 63, 63] := by
  have hnx : 2 ≤ exampleSingle.nx := by simp [exampleSingle]
  have htx : exampleSingle.tx.length = exampleSingle.nx := by simp [exampleSingle]
  have hty : exampleSingle.ty.length = exampleSingle.ny := by simp [exampleSingle]
  have hd : DistinctKnots exampleSingle := by
    intro i hi
    have h01 : i = 0 ∨ i = 1 := by
      simp only [exampleSingle] at hi
      omega
    rcases h01 with h | h <;> subst h <;> decide!
  have h1 : mexFunction (withValues exampleSingle [10, 20, 30])
      = .ok [10, 10, 15, 20, 25, 30, 30] := by decide!
  have h2 : mexFunction (withValues exampleSingle [1, 1, 1]) = .ok [1, 1, 1, 1, 1, 1, 1] := by
    decide!
  obtain ⟨_, y, y1, yl, g1, g2, g3, _, _, g6, _⟩ :=
    C18_linearity_amended exampleSingle 2 3 [10, 20, 30] [1, 1, 1] hnx htx hty
      (by simp [exampleSingle]) (by simp [exampleSingle]) hd
  refine ⟨hnx, htx, hty, hd, h1, h2, ?_⟩
  rw [h1] at g1
  rw [h2] at g2
  simp only [Except.ok.injEq] at g1 g2
  rw [g3, g6, ← g1, ← g2]
  decide!
